import Mathlib

/-!
Verification development for the SLEAP multi-object pose tracker
(`sleap/nn/tracking.py`), shallowly embedded in Lean.

Modelling conventions:
* Machine floats are modelled as rationals.  A float value that may be NaN is
  modelled as `Option ℚ`, with `none` standing for NaN (the only NaN sources in
  the tracker are missing keypoints and empty reductions).
* A keypoint row of a points array is `Option (ℚ × ℚ)`: `none` is a missing
  keypoint (NaN in both coordinates, the encoding the data model prescribes).
* Cost-matrix entries are `WithTop ℚ`: `⊤` models `+∞` (the tracker writes
  `np.inf` over NaN similarities before matching).
* Python `Track` objects compare by object identity; they are modelled by a
  structure carrying a fresh allocator id (`id`), so that two tracks created by
  distinct allocations are distinct values.
* `np.argsort` sorts ascending; ties are resolved here by the stable
  `List.mergeSort`, i.e. in row-major linearized order.
-/

namespace Sleap

/-- A float value that may be NaN: `none` models NaN, `some q` a finite value. -/
abbrev SimVal := Option ℚ

/-- One keypoint: `none` models a missing keypoint (NaN coordinates). -/
abbrev KPoint := Option (ℚ × ℚ)

/-- Row-major list of all (row, col) index pairs of an `R × C` matrix, in the
order produced by linearizing the matrix (`np.unravel_index` order). -/
def allEdges (R C : ℕ) : List (ℕ × ℕ) :=
  (List.range R).flatMap (fun r => (List.range C).map (fun c => (r, c)))

/-- The edge list of `greedy_matching` (tracking.py:80-81): all matrix entries
sorted by ascending cost; the stable sort keeps ties in row-major order. -/
def sortedEdges (R C : ℕ) (cost : ℕ → ℕ → WithTop ℚ) : List (ℕ × ℕ) :=
  (allEdges R C).insertionSort (fun e f => cost e.1 e.2 ≤ cost f.1 f.2)

/-- The assignment loop of `greedy_matching` (tracking.py:84-95): repeatedly
pop the lowest-cost remaining edge, assign it, and delete every remaining edge
that shares its row or its column.  The `fuel` argument only bounds the number
of loop iterations (each iteration strictly shrinks the edge list, so any
`fuel ≥` the initial length is exact); it keeps the recursion structural. -/
def greedyAssignFuel : ℕ → List (ℕ × ℕ) → List (ℕ × ℕ)
  | 0, _ => []
  | _, [] => []
  | fuel + 1, e :: rest =>
    e :: greedyAssignFuel fuel (rest.filter (fun f => f.1 ≠ e.1 ∧ f.2 ≠ e.2))

/-- The assignment loop, run to completion on its edge list. -/
def greedyAssign (l : List (ℕ × ℕ)) : List (ℕ × ℕ) :=
  greedyAssignFuel l.length l

/-- `greedy_matching` (tracking.py:76-95): greedy bipartite matching on a cost
matrix of shape `(R, C)` with entries in `WithTop ℚ` (`⊤` = `+∞`). -/
def greedy_matching (R C : ℕ) (cost : ℕ → ℕ → WithTop ℚ) : List (ℕ × ℕ) :=
  greedyAssign (sortedEdges R C cost)

lemma mem_allEdges {R C : ℕ} {p : ℕ × ℕ} :
    p ∈ allEdges R C ↔ p.1 < R ∧ p.2 < C := by
  rcases p with ⟨r, c⟩
  simp only [allEdges, List.mem_flatMap, List.mem_map, List.mem_range]
  constructor
  · rintro ⟨a, ha, b, hb, h⟩
    cases h
    exact ⟨ha, hb⟩
  · rintro ⟨h1, h2⟩
    exact ⟨r, h1, c, h2, rfl⟩

lemma mem_sortedEdges {R C : ℕ} {cost : ℕ → ℕ → WithTop ℚ} {p : ℕ × ℕ} :
    p ∈ sortedEdges R C cost ↔ p.1 < R ∧ p.2 < C := by
  rw [← mem_allEdges (R := R) (C := C)]
  exact (List.perm_insertionSort _ (allEdges R C)).mem_iff

lemma greedyAssignFuel_subset :
    ∀ (fuel : ℕ) (l : List (ℕ × ℕ)), greedyAssignFuel fuel l ⊆ l := by
  intro fuel
  induction fuel with
  | zero => intro l a ha; simp [greedyAssignFuel] at ha
  | succ n ih =>
    intro l a ha
    match l with
    | [] => cases ha
    | e :: rest =>
      rw [greedyAssignFuel] at ha
      rcases List.mem_cons.mp ha with h | h
      · exact h ▸ List.mem_cons_self _ _
      · exact List.mem_cons_of_mem _ (List.mem_of_mem_filter (ih _ h))

lemma greedyAssignFuel_nodup_fst :
    ∀ (fuel : ℕ) (l : List (ℕ × ℕ)),
      ((greedyAssignFuel fuel l).map Prod.fst).Nodup := by
  intro fuel
  induction fuel with
  | zero => intro l; simp [greedyAssignFuel]
  | succ n ih =>
    intro l
    match l with
    | [] => simp [greedyAssignFuel]
    | e :: rest =>
      rw [greedyAssignFuel]
      refine List.nodup_cons.mpr ⟨?_, ih _⟩
      intro hmem
      rcases List.mem_map.mp hmem with ⟨a, ha, hfst⟩
      have := List.of_mem_filter (greedyAssignFuel_subset _ _ ha)
      simp only [decide_eq_true_eq] at this
      exact this.1 hfst

lemma greedyAssignFuel_nodup_snd :
    ∀ (fuel : ℕ) (l : List (ℕ × ℕ)),
      ((greedyAssignFuel fuel l).map Prod.snd).Nodup := by
  intro fuel
  induction fuel with
  | zero => intro l; simp [greedyAssignFuel]
  | succ n ih =>
    intro l
    match l with
    | [] => simp [greedyAssignFuel]
    | e :: rest =>
      rw [greedyAssignFuel]
      refine List.nodup_cons.mpr ⟨?_, ih _⟩
      intro hmem
      rcases List.mem_map.mp hmem with ⟨a, ha, hsnd⟩
      have := List.of_mem_filter (greedyAssignFuel_subset _ _ ha)
      simp only [decide_eq_true_eq] at this
      exact this.2 hsnd

/-- Every edge of the input either was assigned or conflicts with an assigned
edge in its row or column (greedy assignments are maximal), provided the fuel
covers the list. -/
lemma greedyAssignFuel_maximal :
    ∀ (fuel : ℕ) (l : List (ℕ × ℕ)), l.length ≤ fuel → ∀ a ∈ l,
      a.1 ∈ (greedyAssignFuel fuel l).map Prod.fst ∨
      a.2 ∈ (greedyAssignFuel fuel l).map Prod.snd := by
  intro fuel
  induction fuel with
  | zero =>
    intro l hlen a ha
    rw [List.length_eq_zero.mp (Nat.le_zero.mp hlen)] at ha
    cases ha
  | succ n ih =>
    intro l hlen a ha
    match l with
    | [] => cases ha
    | e :: rest =>
      rw [greedyAssignFuel]
      rcases List.mem_cons.mp ha with h | h
      · left
        subst h
        simp
      · by_cases hc : a.1 ≠ e.1 ∧ a.2 ≠ e.2
        · have hmem : a ∈ rest.filter (fun f => f.1 ≠ e.1 ∧ f.2 ≠ e.2) :=
            List.mem_filter.mpr ⟨h, by simpa using hc⟩
          have hlen' : (rest.filter (fun f => f.1 ≠ e.1 ∧ f.2 ≠ e.2)).length ≤ n := by
            have h1 := List.length_filter_le
              (fun f => decide (f.1 ≠ e.1 ∧ f.2 ≠ e.2)) rest
            simp only [List.length_cons] at hlen
            omega
          rcases ih _ hlen' a hmem with h1 | h1
          · left; simp only [List.map_cons]; exact List.mem_cons_of_mem _ h1
          · right; simp only [List.map_cons]; exact List.mem_cons_of_mem _ h1
        · rcases Decidable.not_and_iff_or_not.mp hc with h1 | h1
          · left
            simp only [List.map_cons]
            exact (Decidable.not_not.mp h1) ▸ List.mem_cons_self _ _
          · right
            simp only [List.map_cons]
            exact (Decidable.not_not.mp h1) ▸ List.mem_cons_self _ _

lemma greedyAssign_subset (l : List (ℕ × ℕ)) : greedyAssign l ⊆ l :=
  greedyAssignFuel_subset _ _

lemma greedyAssign_nodup_fst (l : List (ℕ × ℕ)) :
    ((greedyAssign l).map Prod.fst).Nodup :=
  greedyAssignFuel_nodup_fst _ _

lemma greedyAssign_nodup_snd (l : List (ℕ × ℕ)) :
    ((greedyAssign l).map Prod.snd).Nodup :=
  greedyAssignFuel_nodup_snd _ _

lemma greedyAssign_maximal (l : List (ℕ × ℕ)) :
    ∀ a ∈ l, a.1 ∈ (greedyAssign l).map Prod.fst ∨
      a.2 ∈ (greedyAssign l).map Prod.snd :=
  greedyAssignFuel_maximal _ _ le_rfl

lemma nodup_lt_length_le {l : List ℕ} {n : ℕ} (hd : l.Nodup)
    (hlt : ∀ x ∈ l, x < n) : l.length ≤ n := by
  have hsub : l.toFinset ⊆ Finset.range n := by
    intro x hx
    exact Finset.mem_range.mpr (hlt x (List.mem_toFinset.mp hx))
  have := Finset.card_le_card hsub
  rwa [List.toFinset_card_of_nodup hd, Finset.card_range] at this

lemma exists_unused {l : List ℕ} {n : ℕ} (hd : l.Nodup)
    (hlen : l.length < n) : ∃ x, x < n ∧ x ∉ l := by
  by_contra h
  push_neg at h
  have : n ≤ l.length := by
    have hsub : Finset.range n ⊆ l.toFinset := by
      intro x hx
      exact List.mem_toFinset.mpr (h x (Finset.mem_range.mp hx))
    have := Finset.card_le_card hsub
    rwa [List.toFinset_card_of_nodup hd, Finset.card_range] at this
  omega

/-- `greedy_matching` always returns exactly `min R C` pairs, whatever the
entries of the cost matrix are. -/
lemma greedy_matching_length (R C : ℕ) (cost : ℕ → ℕ → WithTop ℚ) :
    (greedy_matching R C cost).length = min R C := by
  set A := greedy_matching R C cost with hA
  have hsub : ∀ a ∈ A, a.1 < R ∧ a.2 < C := by
    intro a ha
    exact mem_sortedEdges.mp (greedyAssign_subset _ ha)
  have hfst : (A.map Prod.fst).Nodup := greedyAssign_nodup_fst _
  have hsnd : (A.map Prod.snd).Nodup := greedyAssign_nodup_snd _
  have hlenR : A.length ≤ R := by
    have := nodup_lt_length_le hfst (by
      intro x hx
      rcases List.mem_map.mp hx with ⟨a, ha, h⟩
      exact h ▸ (hsub a ha).1)
    simpa using this
  have hlenC : A.length ≤ C := by
    have := nodup_lt_length_le hsnd (by
      intro x hx
      rcases List.mem_map.mp hx with ⟨a, ha, h⟩
      exact h ▸ (hsub a ha).2)
    simpa using this
  have hge : ¬(A.length < R ∧ A.length < C) := by
    rintro ⟨h1, h2⟩
    obtain ⟨r, hrlt, hrnot⟩ := exists_unused hfst (by simpa using h1)
    obtain ⟨c, hclt, hcnot⟩ := exists_unused hsnd (by simpa using h2)
    have hmem : ((r, c) : ℕ × ℕ) ∈ sortedEdges R C cost :=
      mem_sortedEdges.mpr ⟨hrlt, hclt⟩
    rcases greedyAssign_maximal _ _ hmem with h | h
    · exact hrnot h
    · exact hcnot h
  omega

/-- C10 -- For every non-empty cost matrix of shape `(R, C)` (entries in
`WithTop ℚ`, so `+∞` entries are allowed), `greedy_matching` returns exactly
`min R C` pairs, regardless of the entry values. -/
theorem greedy_matching_always_min_pairs (R C : ℕ) (cost : ℕ → ℕ → WithTop ℚ)
    (hR : 0 < R) (hC : 0 < C) :
    (greedy_matching R C cost).length = min R C :=
  greedy_matching_length R C cost

/-- Witness for C10: on the concrete 2 × 3 all-zero matrix the greedy matcher
returns `min 2 3 = 2` pairs. -/
theorem greedy_matching_always_min_pairs_witness :
    (greedy_matching 2 3 (fun _ _ => (0 : WithTop ℚ))).length = min 2 3 :=
  greedy_matching_always_min_pairs 2 3 (fun _ _ => (0 : WithTop ℚ))
    (by decide) (by decide)

/-- C1 -- Evaluation of `greedy_matching` at the failing input: on the 2 × 2
cost matrix whose entries are all `+∞` (every pair forbidden), the code still
returns `min 2 2 = 2` pairs -- the `+∞` pairs `(0,0)` and `(1,1)` -- instead of
the zero pairs the specification requires, so matched instances do not fall
through to the spawn phase. -/
theorem greedy_all_forbidden_assigns_pairs :
    greedy_matching 2 2 (fun _ _ => (⊤ : WithTop ℚ)) = [(0, 0), (1, 1)] := by
  rfl

/-- Total cost of a list of (row, col) pairs on a finite cost matrix. -/
def totalCost (cost : ℕ → ℕ → ℚ) (pairs : List (ℕ × ℕ)) : ℚ :=
  (pairs.map (fun p => cost p.1 p.2)).sum

/-- A finite cost matrix viewed with `WithTop ℚ` entries, as handed to the
configurable matching functions (none of its entries is `+∞`). -/
def finiteCost (cost : ℕ → ℕ → ℚ) : ℕ → ℕ → WithTop ℚ :=
  fun r c => (cost r c : WithTop ℚ)

/-- All complete matchings of the complete bipartite graph on `R` rows and `C`
columns: `min R C` pairs, no repeated row, no repeated column. -/
def completeMatchings (R C : ℕ) : Finset (Finset (Fin R × Fin C)) :=
  Finset.univ.powerset.filter
    (fun M => M.card = min R C ∧ ∀ p ∈ M, ∀ q ∈ M, p ≠ q → p.1 ≠ q.1 ∧ p.2 ≠ q.2)

/-- The diagonal matching, witnessing that a complete matching exists. -/
def diagMatching (R C : ℕ) : Finset (Fin R × Fin C) :=
  (Finset.univ : Finset (Fin (min R C))).image
    (fun i => (Fin.castLE (Nat.min_le_left R C) i, Fin.castLE (Nat.min_le_right R C) i))

lemma diagMatching_mem (R C : ℕ) : diagMatching R C ∈ completeMatchings R C := by
  have hinj : Function.Injective
      (fun i : Fin (min R C) =>
        ((Fin.castLE (Nat.min_le_left R C) i, Fin.castLE (Nat.min_le_right R C) i) :
          Fin R × Fin C)) := by
    intro i j hij
    exact Fin.castLE_injective (Nat.min_le_left R C) (congrArg Prod.fst hij)
  refine Finset.mem_filter.mpr ⟨Finset.mem_powerset.mpr (Finset.subset_univ _), ?_, ?_⟩
  · rw [diagMatching, Finset.card_image_of_injective _ hinj, Finset.card_univ,
      Fintype.card_fin]
  · intro p hp q hq hpq
    rcases Finset.mem_image.mp hp with ⟨i, _, hi⟩
    rcases Finset.mem_image.mp hq with ⟨j, _, hj⟩
    have hij : i ≠ j := by
      intro h
      exact hpq (hi ▸ hj ▸ h ▸ rfl)
    constructor
    · intro h
      apply hij
      apply Fin.castLE_injective (Nat.min_le_left R C)
      have h1 : p.1 = Fin.castLE (Nat.min_le_left R C) i := by rw [← hi]
      have h2 : q.1 = Fin.castLE (Nat.min_le_left R C) j := by rw [← hj]
      rw [← h1, ← h2, h]
    · intro h
      apply hij
      apply Fin.castLE_injective (Nat.min_le_right R C)
      have h1 : p.2 = Fin.castLE (Nat.min_le_right R C) i := by rw [← hi]
      have h2 : q.2 = Fin.castLE (Nat.min_le_right R C) j := by rw [← hj]
      rw [← h1, ← h2, h]

lemma completeMatchings_nonempty (R C : ℕ) : (completeMatchings R C).Nonempty :=
  ⟨_, diagMatching_mem R C⟩

/-- Modelled from the spec: `hungarian_matching` (tracking.py:69-73) wraps
scipy's `linear_sum_assignment`, which lives outside this repository; per the
spec it produces a minimum-total-cost assignment on the (possibly rectangular)
finite matrix with no repeated row or column.  This is that optimal total
cost. -/
def hungarianCost (R C : ℕ) (cost : ℕ → ℕ → ℚ) : ℚ :=
  ((completeMatchings R C).image
    (fun M => M.sum (fun p => cost p.1.1 p.2.1))).min'
    ((completeMatchings_nonempty R C).image _)

/-- A pair list with entries inside the matrix, re-indexed with `Fin`. -/
def finPairs (R C : ℕ) (l : List (ℕ × ℕ)) : List (Fin R × Fin C) :=
  l.filterMap (fun p =>
    if h : p.1 < R ∧ p.2 < C then some (⟨p.1, h.1⟩, ⟨p.2, h.2⟩) else none)

lemma finPairs_map_val {R C : ℕ} {l : List (ℕ × ℕ)}
    (hb : ∀ p ∈ l, p.1 < R ∧ p.2 < C) :
    (finPairs R C l).map (fun q => ((q.1 : ℕ), (q.2 : ℕ))) = l := by
  induction l with
  | nil => rfl
  | cons a l ih =>
    have ha := hb a (List.mem_cons_self _ _)
    have ih' := ih (fun p hp => hb p (List.mem_cons_of_mem _ hp))
    simp only [finPairs, List.filterMap_cons, dif_pos ha] at *
    simpa using ih'

lemma finPairs_nodup {R C : ℕ} {l : List (ℕ × ℕ)}
    (hb : ∀ p ∈ l, p.1 < R ∧ p.2 < C) (hfst : (l.map Prod.fst).Nodup) :
    (finPairs R C l).Nodup := by
  have hl : l.Nodup := List.Nodup.of_map _ hfst
  have := finPairs_map_val (R := R) (C := C) hb
  exact List.Nodup.of_map _ (this ▸ hl)

/-- C5 -- For every finite cost matrix, `greedy_matching` returns a valid
matching (no row index and no column index appears in more than one returned
pair) and its total cost is at least the Hungarian (minimum assignment) cost
on the same matrix. -/
theorem greedy_valid_and_ge_hungarian (R C : ℕ) (cost : ℕ → ℕ → ℚ) :
    ((greedy_matching R C (finiteCost cost)).map Prod.fst).Nodup ∧
    ((greedy_matching R C (finiteCost cost)).map Prod.snd).Nodup ∧
    hungarianCost R C cost ≤ totalCost cost (greedy_matching R C (finiteCost cost)) := by
  set L := greedy_matching R C (finiteCost cost) with hL
  have hfst : (L.map Prod.fst).Nodup := greedyAssign_nodup_fst _
  have hsnd : (L.map Prod.snd).Nodup := greedyAssign_nodup_snd _
  have hb : ∀ p ∈ L, p.1 < R ∧ p.2 < C := by
    intro p hp
    exact mem_sortedEdges.mp (greedyAssign_subset _ hp)
  refine ⟨hfst, hsnd, ?_⟩
  have hmapval := finPairs_map_val (R := R) (C := C) hb
  have hnd : (finPairs R C L).Nodup := finPairs_nodup hb hfst
  set F := (finPairs R C L).toFinset with hF
  have hcardL : (finPairs R C L).length = L.length := by
    have := congrArg List.length hmapval
    simpa using this
  have hvalid : ∀ p ∈ F, ∀ q ∈ F, p ≠ q → p.1 ≠ q.1 ∧ p.2 ≠ q.2 := by
    intro p hp q hq hpq
    have hp' : p ∈ finPairs R C L := List.mem_toFinset.mp hp
    have hq' : q ∈ finPairs R C L := List.mem_toFinset.mp hq
    have hpl : ((p.1 : ℕ), (p.2 : ℕ)) ∈ L := by
      rw [← hmapval]; exact List.mem_map_of_mem _ hp'
    have hql : ((q.1 : ℕ), (q.2 : ℕ)) ∈ L := by
      rw [← hmapval]; exact List.mem_map_of_mem _ hq'
    constructor
    · intro h
      apply hpq
      have h1 : ((p.1 : ℕ), (p.2 : ℕ)).1 = ((q.1 : ℕ), (q.2 : ℕ)).1 := by
        simpa using congrArg Fin.val h
      have heq := List.inj_on_of_nodup_map hfst hpl hql h1
      have hv1 : (p.1 : ℕ) = (q.1 : ℕ) := by simpa using congrArg Prod.fst heq
      have hv2 : (p.2 : ℕ) = (q.2 : ℕ) := by simpa using congrArg Prod.snd heq
      exact Prod.ext (Fin.ext hv1) (Fin.ext hv2)
    · intro h
      apply hpq
      have h1 : ((p.1 : ℕ), (p.2 : ℕ)).2 = ((q.1 : ℕ), (q.2 : ℕ)).2 := by
        simpa using congrArg Fin.val h
      have heq := List.inj_on_of_nodup_map hsnd hpl hql h1
      have hv1 : (p.1 : ℕ) = (q.1 : ℕ) := by simpa using congrArg Prod.fst heq
      have hv2 : (p.2 : ℕ) = (q.2 : ℕ) := by simpa using congrArg Prod.snd heq
      exact Prod.ext (Fin.ext hv1) (Fin.ext hv2)
  have hFmem : F ∈ completeMatchings R C := by
    refine Finset.mem_filter.mpr ⟨Finset.mem_powerset.mpr (Finset.subset_univ _), ?_, hvalid⟩
    rw [hF, List.toFinset_card_of_nodup hnd, hcardL, hL, greedy_matching_length]
  have hsum : F.sum (fun p => cost p.1.1 p.2.1) = totalCost cost L := by
    rw [hF, List.sum_toFinset _ hnd]
    have : (finPairs R C L).map ((fun p => cost p.1 p.2) ∘ (fun q => ((q.1 : ℕ), (q.2 : ℕ))))
        = L.map (fun p => cost p.1 p.2) := by
      rw [← List.map_map, hmapval]
    unfold totalCost
    rw [← this]
    rfl
  calc hungarianCost R C cost
      ≤ F.sum (fun p => cost p.1.1 p.2.1) :=
        Finset.min'_le _ _ (Finset.mem_image.mpr ⟨F, hFmem, rfl⟩)
    _ = totalCost cost L := hsum

/-- Per-row squared distance between the query and reference points arrays
(`dists` of tracking.py:23-25): NaN (`none`) whenever either row is missing. -/
def rowDist (qr : KPoint × KPoint) : SimVal :=
  match qr with
  | (some q, some r) => some ((q.1 - r.1) ^ 2 + (q.2 - r.2) ^ 2)
  | _ => none

/-- `instance_similarity` (tracking.py:17-28).  The float `exp` is the numeric
kernel `qexp`, kept abstract (the claim is independent of its values).
`np.nansum` treats the NaN terms as zero; dividing by a zero visible-reference
count makes the result non-finite in the source, modelled as `none`. -/
def instance_similarity (qexp : ℚ → ℚ) (ref query : List KPoint) : SimVal :=
  let dists : List SimVal := (List.zip query ref).map rowDist
  let total : ℚ :=
    (dists.map (fun d =>
      match d with
      | some d0 => qexp (-d0)
      | none => 0)).sum
  let refVisible : ℕ := ref.countP (fun p => p.isSome)
  if refVisible = 0 then none else some (total / refVisible)

/-- The specification formula for instance similarity: the sum over joints
visible in both instances of `exp` of minus the squared distance, divided by
the count of joints visible in the reference instance. -/
def specInstanceSimilarity (qexp : ℚ → ℚ) (ref query : List KPoint) : ℚ :=
  (((List.zip query ref).filterMap (fun qr =>
    match qr with
    | (some q, some r) => some (qexp (-((q.1 - r.1) ^ 2 + (q.2 - r.2) ^ 2)))
    | _ => none)).sum) / (ref.countP (fun p => p.isSome))

lemma sum_map_getD_filterMap {α : Type} (g : α → Option ℚ) (l : List α) :
    (l.map (fun a => (g a).getD 0)).sum = (l.filterMap g).sum := by
  induction l with
  | nil => rfl
  | cons a l ih =>
    cases hg : g a with
    | none => simp [List.filterMap_cons, hg, ih]
    | some v => simp [List.filterMap_cons, hg, ih]

/-- C4 -- For every pair of instances with keypoint arrays of the same joint
count and at least one visible reference joint, `instance_similarity` equals
the sum over joints visible in both instances of `exp (−‖q_j − r_j‖²)`,
divided by the count of joints visible in the reference instance; joints
missing on either side contribute nothing to the sum. -/
theorem instance_similarity_eq_spec (qexp : ℚ → ℚ) (ref query : List KPoint)
    (hlen : ref.length = query.length)
    (hvis : 0 < ref.countP (fun p => p.isSome)) :
    instance_similarity qexp ref query =
      some (specInstanceSimilarity qexp ref query) := by
  clear hlen
  unfold instance_similarity specInstanceSimilarity
  rw [if_neg (by omega)]
  congr 1
  congr 1
  rw [List.map_map]
  have h1 : ((fun d =>
      match d with
      | some d0 => qexp (-d0)
      | none => (0 : ℚ)) ∘ rowDist) = (fun qr =>
        ((fun qr : KPoint × KPoint =>
          match qr with
          | (some q, some r) => some (qexp (-((q.1 - r.1) ^ 2 + (q.2 - r.2) ^ 2)))
          | _ => none) qr).getD 0) := by
    funext qr
    rcases qr with ⟨q, r⟩
    cases q <;> cases r <;> rfl
  rw [h1]
  exact sum_map_getD_filterMap _ _

/-- Witness for C4: identical single-joint instances give similarity
`qexp 0 / 1` as the spec formula states (with `qexp` taken as the identity). -/
theorem instance_similarity_eq_spec_witness :
    instance_similarity id [some ((0 : ℚ), (0 : ℚ))] [some ((0 : ℚ), (0 : ℚ))] =
      some (specInstanceSimilarity id [some ((0 : ℚ), (0 : ℚ))]
        [some ((0 : ℚ), (0 : ℚ))]) :=
  instance_similarity_eq_spec id _ _ (by decide) (by decide)

/-- Keys of `tracker_policies` (tracking.py:322), in insertion order. -/
def trackerPolicies : List String := ["simple", "flow"]

/-- Keys of `similarity_policies` (tracking.py:324-326), in insertion order. -/
def similarityPolicies : List String := ["instance", "centroid", "iou"]

/-- Keys of `match_policies` (tracking.py:328), in insertion order. -/
def matchPolicies : List String := ["hungarian", "greedy"]

/-- The settings assembled by `Tracker.make_tracker_by_name`
(tracking.py:564-584): chosen policy names plus the numeric options (the
policy objects themselves are determined by the names). -/
structure TrackerSetup where
  trackerName : String
  similarityName : String
  matchingName : String
  trackWindow : ℕ
  minNewTrackPoints : ℕ
  minMatchPoints : ℕ
  imgScale : ℚ
  ofWindowSize : ℕ
  ofMaxLevels : ℕ
  cleanInstanceCount : ℕ
deriving DecidableEq, Repr

/-- `Tracker.make_tracker_by_name` (tracking.py:537-584): validates the three
policy names against the policy dictionaries -- raising `ValueError` (modelled
as `Except.error`) with the source's message for an unknown name -- and builds
the tracker settings. -/
def make_tracker_by_name (tracker similarity matching : String)
    (trackWindow minNewTrackPoints minMatchPoints : ℕ) (imgScale : ℚ)
    (ofWindowSize ofMaxLevels cleanInstanceCount : ℕ) :
    Except String TrackerSetup :=
  if tracker ∉ trackerPolicies then
    Except.error (tracker ++ " is not a valid tracker.")
  else if similarity ∉ similarityPolicies then
    Except.error (similarity ++ " is not a valid tracker similarity function.")
  else if matching ∉ matchPolicies then
    Except.error (matching ++ " is not a valid tracker matching function.")
  else
    Except.ok
      { trackerName := tracker
        similarityName := similarity
        matchingName := matching
        trackWindow := trackWindow
        minNewTrackPoints := minNewTrackPoints
        minMatchPoints := minMatchPoints
        imgScale := imgScale
        ofWindowSize := ofWindowSize
        ofMaxLevels := ofMaxLevels
        cleanInstanceCount := cleanInstanceCount }

/-- One entry of `Tracker.get_by_name_factory_options`. -/
structure FactoryOption where
  name : String
  defaultValue : String
  options : List String
deriving DecidableEq, Repr

/-- The `tracker` entry of `Tracker.get_by_name_factory_options`
(tracking.py:591-596): name `tracker`, default `"None"`, and the tracker
policy keys plus `"None"` as its advertised options. -/
def trackerFactoryOption : FactoryOption :=
  { name := "tracker"
    defaultValue := "None"
    options := trackerPolicies ++ ["None"] }

/-- C2 -- Evaluation at the failing input: `"None"` is the factory's
advertised default for the tracker option and one of its advertised enum
values, an invalid enum value (`"bogus"`) fails with the descriptive error,
yet constructing a tracker with the advertised default `"None"` also fails
with a `ValueError` instead of producing a pass-through tracker. -/
theorem make_tracker_by_name_rejects_none :
    trackerFactoryOption.defaultValue = "None" ∧
    "None" ∈ trackerFactoryOption.options ∧
    make_tracker_by_name "bogus" "instance" "greedy" 5 0 0 1 21 3 0 =
      Except.error ("bogus is not a valid tracker.") ∧
    make_tracker_by_name "None" "instance" "greedy" 5 0 0 1 21 3 0 =
      Except.error ("None is not a valid tracker.") := by
  refine ⟨rfl, by decide, ?_, ?_⟩ <;> rfl

/-- A `Track` (sleap.instance): Python compares tracks by object identity,
modelled by the allocator id `id`; `spawnedOn` and `name` are its fields.
The source formats the name as the string `track_<k>`; the formatting is
identity-irrelevant, so the name is modelled by the index `k`. -/
structure Track where
  id : ℕ
  spawnedOn : ℕ
  name : ℕ
deriving DecidableEq, Repr

/-- A detected instance (sleap.instance): the keypoint array plus the
attributes the tracker reads and writes.  `frame` is the opaque back-reference
to the owning frame; `uid` models the identity of the detection the record
originates from (`attr.evolve` copies every field that is not overridden, so
evolved copies keep it). -/
structure Instance where
  points : List KPoint
  track : Option Track := none
  trackingScore : Option SimVal := none
  score : ℚ := 0
  frame : ℕ := 0
  uid : ℕ := 0
deriving DecidableEq, Repr

instance : Inhabited Instance :=
  ⟨{ points := [] }⟩

/-- `n_visible_points`: the number of rows of the points array with no
missing coordinate. -/
def Instance.nVisiblePoints (i : Instance) : ℕ :=
  i.points.countP (fun p => p.isSome)

/-- A `ShiftedInstance` (tracking.py:98-150). -/
structure ShiftedInstance where
  pointsArray : List KPoint
  skeleton : Option ℕ := none
  frame : ℕ
  track : Option Track
  shiftScore : ℚ
deriving DecidableEq, Repr

/-- `ShiftedInstance.from_instance` (tracking.py:127-150) with the default
`with_skeleton = False`, as called by `flow_shift_instances`. -/
def ShiftedInstance.from_instance (ref : Instance) (newPoints : List KPoint)
    (shiftScore : ℚ) : ShiftedInstance :=
  { pointsArray := newPoints
    skeleton := none
    frame := ref.frame
    track := ref.track
    shiftScore := shiftScore }

/-- `np.split` by cumulative section lengths (tracking.py:275-279): cut `xs`
into one chunk per entry of `lens`. -/
def splitSections {α : Type} : List ℕ → List α → List (List α)
  | [], _ => []
  | n :: ns, xs => xs.take n :: splitSections ns (xs.drop n)

/-- Per-point result of `cv2.calcOpticalFlowPyrLK`: shifted position, found
status, and flow error. -/
abbrev LKResult := (ℚ × ℚ) × Bool × ℚ

/-- The concatenated, scaled reference points handed to optical flow
(tracking.py:260-266). -/
def lkInput (refs : List Instance) (scale : ℚ) : List KPoint :=
  ((refs.map (fun r => r.points)).flatten).map
    (fun p => p.map (fun q => (q.1 * scale, q.2 * scale)))

/-- The per-instance point counts used to split the flow results
(tracking.py:275). -/
def lkLens (refs : List Instance) : List ℕ :=
  refs.map (fun r => r.points.length)

/-- `FlowCandidateMaker.flow_shift_instances` (tracking.py:210-296).  The
image pre-processing and the Lucas-Kanade call are foreign numerical
primitives, abstracted as the oracle `lk` over the concatenated scaled
points.  The result loop (tracking.py:274-296) splits the flow output back
per instance; an instance is kept exactly when strictly more than
`minShiftedPoints` of its points are found; its not-found points are masked
to NaN, the found ones divided back by `scale`, and its shift score is minus
the mean flow error over the found points. -/
def flow_shift_instances (lk : List KPoint → List LKResult)
    (refs : List Instance) (minShiftedPoints : ℕ) (scale : ℚ) :
    List ShiftedInstance :=
  let res := lk (lkInput refs scale)
  let shifted := splitSections (lkLens refs) (res.map (fun r => r.1))
  let status := splitSections (lkLens refs) (res.map (fun r => r.2.1))
  let errs := splitSections (lkLens refs) (res.map (fun r => r.2.2))
  (refs.zip (shifted.zip (status.zip errs))).filterMap (fun x =>
    let ref := x.1
    let pts := x.2.1
    let found := x.2.2.1
    let err := x.2.2.2
    if found.count true > minShiftedPoints then
      some (ShiftedInstance.from_instance ref
        ((pts.zip found).map (fun pf =>
          if pf.2 then some (pf.1.1 / scale, pf.1.2 / scale) else none))
        (-(((err.zip found).filterMap (fun ef =>
            if ef.2 then some ef.1 else none)).sum /
          (((err.zip found).filterMap (fun ef =>
            if ef.2 then some ef.1 else none)).length : ℚ))))
    else none)

/-- The amended emission rule, indexed per reference instance: reference `k`
produces a shifted instance exactly when strictly more than
`minShiftedPoints` of its points are reported found (so a count equal to the
threshold is omitted); an emitted instance keeps the reference's track and
frame, its not-found points are missing, and its shift score is minus the
mean flow error over the found points. -/
def specFlowShift (lk : List KPoint → List LKResult)
    (refs : List Instance) (minShiftedPoints : ℕ) (scale : ℚ) :
    List ShiftedInstance :=
  let res := lk (lkInput refs scale)
  let shifted := splitSections (lkLens refs) (res.map (fun r => r.1))
  let status := splitSections (lkLens refs) (res.map (fun r => r.2.1))
  let errs := splitSections (lkLens refs) (res.map (fun r => r.2.2))
  (List.range refs.length).filterMap (fun k =>
    let ref := refs.getD k default
    let pts := shifted.getD k []
    let found := status.getD k []
    let err := errs.getD k []
    if found.count true > minShiftedPoints then
      some
        { pointsArray := (pts.zip found).map (fun pf =>
            if pf.2 then some (pf.1.1 / scale, pf.1.2 / scale) else none)
          skeleton := none
          frame := ref.frame
          track := ref.track
          shiftScore :=
            -(((err.zip found).filterMap (fun ef =>
                if ef.2 then some ef.1 else none)).sum /
              (((err.zip found).filterMap (fun ef =>
                if ef.2 then some ef.1 else none)).length : ℚ)) }
    else none)

lemma splitSections_length {α : Type} :
    ∀ (ns : List ℕ) (xs : List α), (splitSections ns xs).length = ns.length := by
  intro ns
  induction ns with
  | nil => intro xs; rfl
  | cons n ns ih => intro xs; simp [splitSections, ih]

lemma filterMap_zip4_eq_range
    (g : Instance → List (ℚ × ℚ) → List Bool → List ℚ → Option ShiftedInstance) :
    ∀ (as : List Instance) (bs : List (List (ℚ × ℚ))) (cs : List (List Bool))
      (ds : List (List ℚ)),
      bs.length = as.length → cs.length = as.length → ds.length = as.length →
      (as.zip (bs.zip (cs.zip ds))).filterMap
          (fun x => g x.1 x.2.1 x.2.2.1 x.2.2.2) =
        (List.range as.length).filterMap (fun k =>
          g (as.getD k default) (bs.getD k []) (cs.getD k []) (ds.getD k [])) := by
  intro as
  induction as with
  | nil =>
    intro bs cs ds _ _ _
    rfl
  | cons a as ih =>
    intro bs cs ds hb hc hd
    match bs, cs, ds with
    | b :: bs, c :: cs, d :: ds =>
      simp only [List.length_cons] at hb hc hd
      rw [List.length_cons, List.range_succ_eq_map]
      rw [List.zip_cons_cons, List.zip_cons_cons, List.zip_cons_cons,
        List.filterMap_cons, List.filterMap_cons, List.filterMap_map]
      have ih' := ih bs cs ds (by omega) (by omega) (by omega)
      have hfun : ((fun k =>
          g ((a :: as).getD k default) ((b :: bs).getD k []) ((c :: cs).getD k [])
            ((d :: ds).getD k [])) ∘ Nat.succ) = (fun k =>
          g (as.getD k default) (bs.getD k []) (cs.getD k []) (ds.getD k [])) := by
        funext k
        rfl
      rw [hfun, ← ih']
      rfl

/-- C6 (amended) -- `flow_shift_instances` emits a shifted instance for
reference `k` exactly when optical flow reports strictly more than
`min_shifted_points` found points for it (a count equal to the threshold is
omitted); when it is emitted, its not-found points are set to missing and its
shift score is the negated mean of the flow error over the found points, as
`specFlowShift` spells out per reference index. -/
theorem flow_shift_instances_eq_spec (lk : List KPoint → List LKResult)
    (refs : List Instance) (minShiftedPoints : ℕ) (scale : ℚ) :
    flow_shift_instances lk refs minShiftedPoints scale =
      specFlowShift lk refs minShiftedPoints scale := by
  unfold flow_shift_instances specFlowShift
  have h1 : (splitSections (lkLens refs)
      ((lk (lkInput refs scale)).map (fun r => r.1))).length = refs.length := by
    rw [splitSections_length]; simp [lkLens]
  have h2 : (splitSections (lkLens refs)
      ((lk (lkInput refs scale)).map (fun r => r.2.1))).length = refs.length := by
    rw [splitSections_length]; simp [lkLens]
  have h3 : (splitSections (lkLens refs)
      ((lk (lkInput refs scale)).map (fun r => r.2.2))).length = refs.length := by
    rw [splitSections_length]; simp [lkLens]
  exact filterMap_zip4_eq_range
    (fun ref pts found err =>
      if found.count true > minShiftedPoints then
        some (ShiftedInstance.from_instance ref
          ((pts.zip found).map (fun pf =>
            if pf.2 then some (pf.1.1 / scale, pf.1.2 / scale) else none))
          (-(((err.zip found).filterMap (fun ef =>
              if ef.2 then some ef.1 else none)).sum /
            (((err.zip found).filterMap (fun ef =>
              if ef.2 then some ef.1 else none)).length : ℚ))))
      else none)
    refs _ _ _ h1 h2 h3

/-- The concrete reference instance of the C6 counterexample: one visible
keypoint. -/
def c6Ref : Instance :=
  { points := [some ((0 : ℚ), (0 : ℚ))] }

/-- The concrete flow oracle of the C6 counterexample: every point is found,
shifted to the origin, with zero error. -/
def c6LK : List KPoint → List LKResult :=
  fun pts => pts.map (fun _ => (((0 : ℚ), (0 : ℚ)), true, (0 : ℚ)))

/-- C6 (counterexample) -- With `min_shifted_points = 1` and a reference
instance for which optical flow reports exactly 1 found point, the code emits
no shifted instance (`found.sum() > min_shifted_points` is strict), while the
claim -- omitted exactly when fewer than `min_shifted_points` points are
found -- predicts emission since 1 is not fewer than 1.  The claimed
equivalence is therefore false at this input. -/
theorem flow_shift_at_threshold_counterexample :
    ¬ (flow_shift_instances c6LK [c6Ref] 1 1 = [] ↔ (1 : ℕ) < 1) := by
  decide

/-- An opaque image buffer handle (only its presence matters here). -/
abbrev Img := ℕ

/-- `MatchedInstance` (tracking.py:153-158): one sliding-window record. -/
structure MatchedInstance where
  t : ℕ
  instances_t : List Instance
  img_t : Option Img := none
deriving DecidableEq, Repr

/-- `SimpleCandidateMaker.uses_image` (tracking.py:305-307). -/
def SimpleCandidateMaker.uses_image : Bool := false

/-- `FlowCandidateMaker.uses_image` (tracking.py:175-177). -/
def FlowCandidateMaker.uses_image : Bool := true

/-- `SimpleCandidateMaker.get_candidates` (tracking.py:309-319): every
instance of every window entry with at least `min_points` visible points. -/
def SimpleCandidateMaker.get_candidates (minPoints : ℕ)
    (queue : List MatchedInstance) (t : ℕ) (img : Option Img) : List Instance :=
  queue.flatMap (fun m =>
    m.instances_t.filter (fun r => minPoints ≤ r.nVisiblePoints))

/-- A candidate maker's `get_candidates`, as the tracker core calls it
(tracking.py:429-431): window contents, current timestep, optional image. -/
abbrev GetCandidates := List MatchedInstance → ℕ → Option Img → List Instance

/-- A pairwise similarity function, as the tracker core calls it. -/
abbrev SimFun := Instance → Instance → SimVal

/-- A matching function: rows, columns, cost matrix to (row, col) pairs. -/
abbrev Matcher := ℕ → ℕ → (ℕ → ℕ → WithTop ℚ) → List (ℕ × ℕ)

/-- The mutable state of a `Tracker` (tracking.py:331-374): window capacity
and spawn threshold, the sliding window, the append-only spawned-track log,
and the allocator counter modelling the identity of freshly created `Track`
objects.  The optional `tracked_instances` recording dict (guarded by
`save_tracked_instances`, default off) has no effect on behaviour and is not
modelled. -/
structure TrackerState where
  trackWindow : ℕ := 5
  minNewTrackPoints : ℕ := 0
  queue : List MatchedInstance := []
  spawnedTracks : List Track := []
  nextTrackId : ℕ := 0
deriving DecidableEq, Repr

/-- Timestep inference (tracking.py:408-416): the given `t`, else the last
window entry's `t + 1`, else `0`. -/
def inferT (st : TrackerState) (tOpt : Option ℕ) : ℕ :=
  match tOpt with
  | some t => t
  | none =>
    match st.queue.getLast? with
    | some m => m.t + 1
    | none => 0

/-- The candidate pool for one `track()` step (tracking.py:429-431). -/
def candidatesOf (getC : GetCandidates) (st : TrackerState) (img : Option Img)
    (tOpt : Option ℕ) : List Instance :=
  getC st.queue (inferT st tOpt) img

/-- One step of the `defaultdict(list)` grouping (tracking.py:436-438):
append the instance to its track's group, creating the group at the end on
first sight (Python dicts preserve insertion order). -/
def addToGroups : List (Option Track × List Instance) → Instance →
    List (Option Track × List Instance)
  | [], inst => [(inst.track, [inst])]
  | g :: gs, inst =>
    if g.1 = inst.track then (g.1, g.2 ++ [inst]) :: gs
    else g :: addToGroups gs inst

/-- Candidate instances grouped by track (tracking.py:436-442); the group
keys, in order, are `candidate_tracks`. -/
def groupByTrack (cands : List Instance) : List (Option Track × List Instance) :=
  cands.foldl addToGroups []

/-- The grouped candidate pool of one `track()` step. -/
def groupsOf (getC : GetCandidates) (st : TrackerState) (img : Option Img)
    (tOpt : Option ℕ) : List (Option Track × List Instance) :=
  groupByTrack (candidatesOf getC st img tOpt)

/-- `np.argmax` over a float list, following numpy's scan: a candidate
replaces the current best when it compares greater, or when it is NaN and the
current best is not; hence the first NaN wins if any, else the first
maximum. -/
def npArgmaxBeats : SimVal → SimVal → Bool
  | none, some _ => true
  | none, none => false
  | some _, none => false
  | some x, some m => decide (m < x)

def npArgmaxGo : List SimVal → ℕ × SimVal → ℕ → ℕ
  | [], best, _ => best.1
  | v :: rest, best, i =>
    if npArgmaxBeats v best.2 then npArgmaxGo rest (i, v) (i + 1)
    else npArgmaxGo rest best (i + 1)

/-- `np.argmax` (tracking.py:466); the empty case raises in numpy and is
never reached (groups are non-empty). -/
def npArgmax : List SimVal → ℕ
  | [] => 0
  | v :: rest => npArgmaxGo rest (0, v) 1

/-- The best-scoring candidate of one track group against one untracked
instance (tracking.py:455-471): the kept similarity and the representative
candidate. -/
def bestSimAndCand (sim : SimFun) (u : Instance) (group : List Instance) :
    SimVal × Instance :=
  let scores := group.map (sim u)
  let b := npArgmax scores
  (scores.getD b none, group.getD b default)

/-- Entry `(i, j)` of `matching_similarities` (tracking.py:443-471). -/
def simMatrixOf (getC : GetCandidates) (sim : SimFun) (st : TrackerState)
    (untracked : List Instance) (img : Option Img) (tOpt : Option ℕ) :
    ℕ → ℕ → SimVal :=
  fun i j =>
    (bestSimAndCand sim (untracked.getD i default)
      ((groupsOf getC st img tOpt).getD j (none, [])).2).1

/-- The cost matrix handed to the matching function (tracking.py:474-475):
negated similarities with NaN replaced by `+∞`. -/
def costOf (getC : GetCandidates) (sim : SimFun) (st : TrackerState)
    (untracked : List Instance) (img : Option Img) (tOpt : Option ℕ) :
    ℕ → ℕ → WithTop ℚ :=
  fun i j =>
    match simMatrixOf getC sim st untracked img tOpt i j with
    | none => ⊤
    | some s => ((-s : ℚ) : WithTop ℚ)

/-- The matches of one `track()` step (tracking.py:426-476): empty when there
are no untracked instances or no candidates, else the matching function's
output on the cost matrix. -/
def trackMatches (getC : GetCandidates) (sim : SimFun) (matcher : Matcher)
    (st : TrackerState) (untracked : List Instance) (img : Option Img)
    (tOpt : Option ℕ) : List (ℕ × ℕ) :=
  if untracked.isEmpty then []
  else if (candidatesOf getC st img tOpt).isEmpty then []
  else
    matcher untracked.length (groupsOf getC st img tOpt).length
      (costOf getC sim st untracked img tOpt)

/-- The matched instances (tracking.py:479-497): for each match `(i, j)`, an
`attr.evolve` copy of `untracked[i]` carrying the representative candidate's
track and the matrix similarity as tracking score. -/
def matchedInstancesOf (getC : GetCandidates) (sim : SimFun) (matcher : Matcher)
    (st : TrackerState) (untracked : List Instance) (img : Option Img)
    (tOpt : Option ℕ) : List Instance :=
  (trackMatches getC sim matcher st untracked img tOpt).map (fun p =>
    { untracked.getD p.1 default with
        track :=
          (bestSimAndCand sim (untracked.getD p.1 default)
            ((groupsOf getC st img tOpt).getD p.2 (none, [])).2).2.track
        trackingScore :=
          some (simMatrixOf getC sim st untracked img tOpt p.1 p.2) })

/-- The spawn loop (tracking.py:499-515): walk the enumerated untracked
instances; skip the matched and the too-small ones; mint a fresh track
(allocator id `nextId`, `spawned_on = t`, name from the spawned-track count)
for each remaining one and emit an `attr.evolve` copy on it.  Returns the
emitted instances, the grown spawned-track log, and the next allocator id. -/
def spawnPhase (t minNew : ℕ) (inds : List ℕ) :
    List (ℕ × Instance) → List Track → ℕ → List Instance × List Track × ℕ
  | [], spawned, nextId => ([], spawned, nextId)
  | (i, inst) :: rest, spawned, nextId =>
    if i ∈ inds then spawnPhase t minNew inds rest spawned nextId
    else if inst.nVisiblePoints < minNew then
      spawnPhase t minNew inds rest spawned nextId
    else
      let tr : Track :=
        { id := nextId, spawnedOn := t, name := spawned.length }
      let r := spawnPhase t minNew inds rest (spawned ++ [tr]) (nextId + 1)
      ({ inst with track := some tr } :: r.1, r.2.1, r.2.2)

/-- `Tracker.track` (tracking.py:391-524): one tracking step.  Matched
instances come first, then the newly spawned ones; the resulting list is
appended to the sliding window as a `MatchedInstance` together with the given
image, and the window is trimmed to `track_window` entries from the front
(`deque(maxlen=...)`). -/
def Tracker.track (getC : GetCandidates) (sim : SimFun) (matcher : Matcher)
    (st : TrackerState) (untracked : List Instance) (img : Option Img)
    (tOpt : Option ℕ) : TrackerState × List Instance :=
  let t := inferT st tOpt
  let matched := matchedInstancesOf getC sim matcher st untracked img tOpt
  let inds := (trackMatches getC sim matcher st untracked img tOpt).map Prod.fst
  let sp := spawnPhase t st.minNewTrackPoints inds untracked.enum
    st.spawnedTracks st.nextTrackId
  let tracked := matched ++ sp.1
  let q2 := st.queue ++ [{ t := t, instances_t := tracked, img_t := img }]
  ({ st with
      queue := q2.drop (q2.length - st.trackWindow)
      spawnedTracks := sp.2.1
      nextTrackId := sp.2.2 },
    tracked)

lemma addToGroups_keys (gs : List (Option Track × List Instance)) (inst : Instance) :
    (addToGroups gs inst).map Prod.fst =
      if inst.track ∈ gs.map Prod.fst then gs.map Prod.fst
      else gs.map Prod.fst ++ [inst.track] := by
  induction gs with
  | nil => simp [addToGroups]
  | cons g gs ih =>
    by_cases h : g.1 = inst.track
    · simp [addToGroups, h]
    · by_cases hmem : inst.track ∈ gs.map Prod.fst
      · simp [addToGroups, h, ih, hmem, Ne.symm h]
      · simp [addToGroups, h, ih, hmem, Ne.symm h]

lemma addToGroups_nodup_keys {gs : List (Option Track × List Instance)}
    {inst : Instance} (h : (gs.map Prod.fst).Nodup) :
    ((addToGroups gs inst).map Prod.fst).Nodup := by
  rw [addToGroups_keys]
  by_cases hmem : inst.track ∈ gs.map Prod.fst
  · simpa [hmem] using h
  · rw [if_neg hmem]
    refine List.Nodup.append h (List.nodup_singleton _) ?_
    intro x hx hx'
    rw [List.mem_singleton.mp hx'] at hx
    exact hmem hx

lemma addToGroups_track_eq {gs : List (Option Track × List Instance)}
    {inst : Instance} (h : ∀ g ∈ gs, ∀ x ∈ g.2, x.track = g.1) :
    ∀ g' ∈ addToGroups gs inst, ∀ x ∈ g'.2, x.track = g'.1 := by
  induction gs with
  | nil =>
    intro g' hg' x hx
    rw [addToGroups] at hg'
    rw [List.mem_singleton.mp hg'] at hx ⊢
    rw [List.mem_singleton.mp hx]
  | cons g gs ih =>
    intro g' hg' x hx
    rw [addToGroups] at hg'
    by_cases hkey : g.1 = inst.track
    · rw [if_pos hkey] at hg'
      rcases List.mem_cons.mp hg' with h1 | h1
      · subst h1
        rcases List.mem_append.mp hx with h2 | h2
        · exact h g (List.mem_cons_self _ _) x h2
        · rw [List.mem_singleton.mp h2]
          exact hkey.symm
      · exact h g' (List.mem_cons_of_mem _ h1) x hx
    · rw [if_neg hkey] at hg'
      rcases List.mem_cons.mp hg' with h1 | h1
      · subst h1
        exact h g' (List.mem_cons_self _ _) x hx
      · exact ih (fun g0 hg0 => h g0 (List.mem_cons_of_mem _ hg0)) g' h1 x hx

lemma addToGroups_nonempty {gs : List (Option Track × List Instance)}
    {inst : Instance} (h : ∀ g ∈ gs, g.2 ≠ []) :
    ∀ g' ∈ addToGroups gs inst, g'.2 ≠ [] := by
  induction gs with
  | nil =>
    intro g' hg'
    rw [addToGroups] at hg'
    rw [List.mem_singleton.mp hg']
    simp
  | cons g gs ih =>
    intro g' hg'
    rw [addToGroups] at hg'
    by_cases hkey : g.1 = inst.track
    · rw [if_pos hkey] at hg'
      rcases List.mem_cons.mp hg' with h1 | h1
      · subst h1
        simp
      · exact h g' (List.mem_cons_of_mem _ h1)
    · rw [if_neg hkey] at hg'
      rcases List.mem_cons.mp hg' with h1 | h1
      · subst h1
        exact h g' (List.mem_cons_self _ _)
      · exact ih (fun g0 hg0 => h g0 (List.mem_cons_of_mem _ hg0)) g' h1

lemma addToGroups_mem_src {gs : List (Option Track × List Instance)}
    {inst : Instance} :
    ∀ g' ∈ addToGroups gs inst, ∀ x ∈ g'.2,
      (∃ g ∈ gs, x ∈ g.2) ∨ x = inst := by
  induction gs with
  | nil =>
    intro g' hg' x hx
    rw [addToGroups] at hg'
    rw [List.mem_singleton.mp hg'] at hx
    right
    exact List.mem_singleton.mp hx
  | cons g gs ih =>
    intro g' hg' x hx
    rw [addToGroups] at hg'
    by_cases hkey : g.1 = inst.track
    · rw [if_pos hkey] at hg'
      rcases List.mem_cons.mp hg' with h1 | h1
      · subst h1
        rcases List.mem_append.mp hx with h2 | h2
        · exact Or.inl ⟨g, List.mem_cons_self _ _, h2⟩
        · exact Or.inr (List.mem_singleton.mp h2)
      · exact Or.inl ⟨g', List.mem_cons_of_mem _ h1, hx⟩
    · rw [if_neg hkey] at hg'
      rcases List.mem_cons.mp hg' with h1 | h1
      · subst h1
        exact Or.inl ⟨g', List.mem_cons_self _ _, hx⟩
      · rcases ih g' h1 x hx with ⟨g0, hg0, hx0⟩ | h2
        · exact Or.inl ⟨g0, List.mem_cons_of_mem _ hg0, hx0⟩
        · exact Or.inr h2

lemma foldl_addToGroups_props :
    ∀ (l : List Instance) (gs : List (Option Track × List Instance)),
      (gs.map Prod.fst).Nodup →
      (∀ g ∈ gs, g.2 ≠ [] ∧ ∀ x ∈ g.2, x.track = g.1) →
      (((l.foldl addToGroups gs).map Prod.fst).Nodup ∧
        ∀ g ∈ l.foldl addToGroups gs, g.2 ≠ [] ∧ ∀ x ∈ g.2, x.track = g.1) := by
  intro l
  induction l with
  | nil => intro gs h1 h2; exact ⟨h1, h2⟩
  | cons a l ih =>
    intro gs h1 h2
    rw [List.foldl_cons]
    refine ih _ (addToGroups_nodup_keys h1) ?_
    intro g hg
    exact ⟨addToGroups_nonempty (fun g0 hg0 => (h2 g0 hg0).1) g hg,
      addToGroups_track_eq (fun g0 hg0 => (h2 g0 hg0).2) g hg⟩

lemma foldl_addToGroups_mem :
    ∀ (l : List Instance) (gs : List (Option Track × List Instance)),
      ∀ g ∈ l.foldl addToGroups gs, ∀ x ∈ g.2,
        (∃ g0 ∈ gs, x ∈ g0.2) ∨ x ∈ l := by
  intro l
  induction l with
  | nil =>
    intro gs g hg x hx
    exact Or.inl ⟨g, hg, hx⟩
  | cons a l ih =>
    intro gs g hg x hx
    rw [List.foldl_cons] at hg
    rcases ih _ g hg x hx with ⟨g0, hg0, hx0⟩ | h
    · rcases addToGroups_mem_src g0 hg0 x hx0 with ⟨g1, hg1, hx1⟩ | h1
      · exact Or.inl ⟨g1, hg1, hx1⟩
      · exact Or.inr (h1 ▸ List.mem_cons_self _ _)
    · exact Or.inr (List.mem_cons_of_mem _ h)

lemma groupByTrack_keys_nodup (cands : List Instance) :
    ((groupByTrack cands).map Prod.fst).Nodup :=
  (foldl_addToGroups_props cands [] (by simp) (by simp)).1

lemma groupByTrack_props (cands : List Instance) :
    ∀ g ∈ groupByTrack cands, g.2 ≠ [] ∧ ∀ x ∈ g.2, x.track = g.1 :=
  (foldl_addToGroups_props cands [] (by simp) (by simp)).2

lemma groupByTrack_mem (cands : List Instance) :
    ∀ g ∈ groupByTrack cands, ∀ x ∈ g.2, x ∈ cands := by
  intro g hg x hx
  rcases foldl_addToGroups_mem cands [] g hg x hx with ⟨g0, hg0, _⟩ | h
  · cases hg0
  · exact h

lemma npArgmaxGo_cases :
    ∀ (rest : List SimVal) (best : ℕ × SimVal) (i : ℕ),
      npArgmaxGo rest best i = best.1 ∨
        (i ≤ npArgmaxGo rest best i ∧ npArgmaxGo rest best i < i + rest.length) := by
  intro rest
  induction rest with
  | nil => intro best i; exact Or.inl rfl
  | cons v rest ih =>
    intro best i
    rw [npArgmaxGo]
    by_cases hupd : npArgmaxBeats v best.2 = true
    · rw [if_pos hupd]
      rcases ih (i, v) (i + 1) with h | h
      · right
        rw [h]
        simp
      · right
        constructor
        · omega
        · simp only [List.length_cons]
          omega
    · rw [if_neg hupd]
      rcases ih best (i + 1) with h | h
      · exact Or.inl h
      · right
        constructor
        · omega
        · simp only [List.length_cons]
          omega

lemma npArgmax_lt {xs : List SimVal} (h : xs ≠ []) : npArgmax xs < xs.length := by
  match xs, h with
  | v :: rest, _ =>
    rw [npArgmax]
    rcases npArgmaxGo_cases rest (0, v) 1 with h1 | h1
    · rw [h1]
      simp
    · rw [List.length_cons]
      omega

lemma bestSimAndCand_mem (sim : SimFun) (u : Instance) {group : List Instance}
    (h : group ≠ []) : (bestSimAndCand sim u group).2 ∈ group := by
  unfold bestSimAndCand
  have hlt : npArgmax (group.map (sim u)) < group.length := by
    have := @npArgmax_lt (group.map (sim u)) (by simpa using h)
    simpa using this
  simp only
  rw [List.getD_eq_getElem _ _ hlt]
  exact List.getElem_mem _

/-- The enumerated untracked instances that the spawn loop keeps: unmatched
and at least `min_new_track_points` visible points. -/
def eligiblePairs (minNew : ℕ) (inds : List ℕ) (l : List (ℕ × Instance)) :
    List (ℕ × Instance) :=
  l.filter (fun p => p.1 ∉ inds ∧ minNew ≤ p.2.nVisiblePoints)

lemma spawnPhase_out_spec (t minNew : ℕ) (inds : List ℕ) :
    ∀ (l : List (ℕ × Instance)) (spawned : List Track) (nextId : ℕ),
      ∀ out ∈ (spawnPhase t minNew inds l spawned nextId).1,
        (∃ tr, out.track = some tr ∧ nextId ≤ tr.id) ∧
        ∃ p ∈ l, p.1 ∉ inds ∧ minNew ≤ p.2.nVisiblePoints ∧ out.uid = p.2.uid := by
  intro l
  induction l with
  | nil => intro spawned nextId out hout; cases hout
  | cons a l ih =>
    intro spawned nextId out hout
    rcases a with ⟨i, inst⟩
    rw [spawnPhase] at hout
    by_cases h1 : i ∈ inds
    · rw [if_pos h1] at hout
      obtain ⟨hfresh, p, hp, hcond⟩ := ih spawned nextId out hout
      exact ⟨hfresh, p, List.mem_cons_of_mem _ hp, hcond⟩
    · rw [if_neg h1] at hout
      by_cases h2 : inst.nVisiblePoints < minNew
      · rw [if_pos h2] at hout
        obtain ⟨hfresh, p, hp, hcond⟩ := ih spawned nextId out hout
        exact ⟨hfresh, p, List.mem_cons_of_mem _ hp, hcond⟩
      · rw [if_neg h2] at hout
        rcases List.mem_cons.mp hout with h3 | h3
        · subst h3
          exact ⟨⟨_, rfl, le_rfl⟩, (i, inst), List.mem_cons_self _ _, h1,
            Nat.not_lt.mp h2, rfl⟩
        · obtain ⟨⟨tr, htr, hle⟩, p, hp, hcond⟩ := ih _ (nextId + 1) out h3
          exact ⟨⟨tr, htr, by omega⟩, p, List.mem_cons_of_mem _ hp, hcond⟩

lemma spawnPhase_nodup_tracks (t minNew : ℕ) (inds : List ℕ) :
    ∀ (l : List (ℕ × Instance)) (spawned : List Track) (nextId : ℕ),
      (((spawnPhase t minNew inds l spawned nextId).1).map
        (fun x => x.track)).Nodup := by
  intro l
  induction l with
  | nil => intro spawned nextId; simp [spawnPhase]
  | cons a l ih =>
    intro spawned nextId
    rcases a with ⟨i, inst⟩
    rw [spawnPhase]
    by_cases h1 : i ∈ inds
    · rw [if_pos h1]; exact ih spawned nextId
    · rw [if_neg h1]
      by_cases h2 : inst.nVisiblePoints < minNew
      · rw [if_pos h2]; exact ih spawned nextId
      · rw [if_neg h2]
        simp only [List.map_cons]
        refine List.nodup_cons.mpr ⟨?_, ih _ (nextId + 1)⟩
        intro hmem
        rcases List.mem_map.mp hmem with ⟨out, hout, htr⟩
        obtain ⟨⟨tr, htr', hle⟩, _⟩ := spawnPhase_out_spec t minNew inds l _ _ out hout
        rw [htr'] at htr
        have : tr.id = nextId := by
          have := congrArg (fun o => (Option.map Track.id o).getD 0) htr
          simpa using this
        omega

lemma spawnPhase_spawned_count (t minNew : ℕ) (inds : List ℕ) :
    ∀ (l : List (ℕ × Instance)) (spawned : List Track) (nextId : ℕ),
      (spawnPhase t minNew inds l spawned nextId).2.1.length =
        spawned.length + (eligiblePairs minNew inds l).length := by
  intro l
  induction l with
  | nil => intro spawned nextId; simp [spawnPhase, eligiblePairs]
  | cons a l ih =>
    intro spawned nextId
    rcases a with ⟨i, inst⟩
    rw [spawnPhase]
    by_cases h1 : i ∈ inds
    · rw [if_pos h1, ih]
      simp [eligiblePairs, h1]
    · rw [if_neg h1]
      by_cases h2 : inst.nVisiblePoints < minNew
      · rw [if_pos h2, ih]
        have h2' : ¬ minNew ≤ inst.nVisiblePoints := by omega
        simp [eligiblePairs, h1, h2']
      · rw [if_neg h2, ih]
        have h2' : minNew ≤ inst.nVisiblePoints := by omega
        simp only [eligiblePairs, List.filter_cons]
        simp [h1, h2']
        omega

lemma matchedInstancesOf_map_track (getC : GetCandidates) (sim : SimFun)
    (matcher : Matcher) (st : TrackerState) (untracked : List Instance)
    (img : Option Img) (tOpt : Option ℕ)
    (hbound : ∀ p ∈ trackMatches getC sim matcher st untracked img tOpt,
      p.2 < (groupsOf getC st img tOpt).length) :
    (matchedInstancesOf getC sim matcher st untracked img tOpt).map
        (fun x => x.track) =
      (trackMatches getC sim matcher st untracked img tOpt).map
        (fun p => ((groupsOf getC st img tOpt).getD p.2 (none, [])).1) := by
  unfold matchedInstancesOf
  rw [List.map_map]
  refine List.map_congr_left ?_
  intro p hp
  have hb := hbound p hp
  have hget : (groupsOf getC st img tOpt).getD p.2 (none, []) =
      (groupsOf getC st img tOpt)[p.2] := List.getD_eq_getElem _ _ hb
  have hgmem : (groupsOf getC st img tOpt)[p.2] ∈ groupsOf getC st img tOpt :=
    List.getElem_mem _
  obtain ⟨hne, htr⟩ := groupByTrack_props (candidatesOf getC st img tOpt) _ hgmem
  have hrep : (bestSimAndCand sim (untracked.getD p.1 default)
      ((groupsOf getC st img tOpt).getD p.2 (none, [])).2).2 ∈
      ((groupsOf getC st img tOpt).getD p.2 (none, [])).2 := by
    rw [hget]
    exact bestSimAndCand_mem _ _ hne
  have := htr _ (hget ▸ hrep)
  show (bestSimAndCand sim (untracked.getD p.1 default)
      ((groupsOf getC st img tOpt).getD p.2 (none, [])).2).2.track =
    ((groupsOf getC st img tOpt).getD p.2 (none, [])).1
  rw [hget]
  exact this

lemma groups_key_lt (getC : GetCandidates) (st : TrackerState) (img : Option Img)
    (tOpt : Option ℕ)
    (hfresh : ∀ c ∈ candidatesOf getC st img tOpt, ∀ tr,
      c.track = some tr → tr.id < st.nextTrackId) :
    ∀ g ∈ groupsOf getC st img tOpt, ∀ tr, g.1 = some tr →
      tr.id < st.nextTrackId := by
  intro g hg tr htr
  obtain ⟨hne, hmemtr⟩ := groupByTrack_props (candidatesOf getC st img tOpt) g hg
  match hx : g.2 with
  | [] => exact absurd hx hne
  | x :: rest =>
    have hxg : x ∈ g.2 := by rw [hx]; exact List.mem_cons_self _ _
    have hx_track : x.track = g.1 := hmemtr x hxg
    have hxc : x ∈ candidatesOf getC st img tOpt := groupByTrack_mem _ g hg x hxg
    exact hfresh x hxc tr (hx_track.trans htr)

lemma nodup_map_getD_fst {groups : List (Option Track × List Instance)}
    {js : List ℕ} (hjs : js.Nodup) (hb : ∀ j ∈ js, j < groups.length)
    (hk : (groups.map Prod.fst).Nodup) :
    (js.map (fun j => (groups.getD j (none, [])).1)).Nodup := by
  induction js with
  | nil => simp
  | cons j js ih =>
    simp only [List.map_cons]
    refine List.nodup_cons.mpr ⟨?_, ?_⟩
    · intro hmem
      rcases List.mem_map.mp hmem with ⟨j', hj', heq⟩
      have hbj : j < groups.length := hb j (List.mem_cons_self _ _)
      have hbj' : j' < groups.length := hb j' (List.mem_cons_of_mem _ hj')
      have hgd : groups.getD j (none, []) = groups[j] := List.getD_eq_getElem _ _ hbj
      have hgd' : groups.getD j' (none, []) = groups[j'] := List.getD_eq_getElem _ _ hbj'
      have hbjm : j < (groups.map Prod.fst).length := by simpa using hbj
      have hbjm' : j' < (groups.map Prod.fst).length := by simpa using hbj'
      have hM : (groups.map Prod.fst)[j'] = (groups.map Prod.fst)[j] := by
        rw [List.getElem_map, List.getElem_map, ← hgd, ← hgd', heq]
      have := (List.Nodup.getElem_inj_iff hk).mp hM
      have hne : j' ≠ j := by
        intro h
        rw [h] at hj'
        exact (List.nodup_cons.mp hjs).1 hj'
      exact hne this
    · exact ih (List.nodup_cons.mp hjs).2 (fun x hx => hb x (List.mem_cons_of_mem _ hx))

/-- Each window entry after a `track()` call was already in the window or is
the newly appended record: current timestep, the returned instances, the
given image. -/
lemma track_queue_mem (getC : GetCandidates) (sim : SimFun) (matcher : Matcher)
    (st : TrackerState) (untracked : List Instance) (img : Option Img)
    (tOpt : Option ℕ) :
    ∀ mi ∈ (Tracker.track getC sim matcher st untracked img tOpt).1.queue,
      mi ∈ st.queue ∨
        (mi.t = inferT st tOpt ∧
          mi.instances_t = (Tracker.track getC sim matcher st untracked img tOpt).2 ∧
          mi.img_t = img) := by
  intro mi hmi
  have h2 : mi ∈ st.queue ++ [MatchedInstance.mk (inferT st tOpt)
      (Tracker.track getC sim matcher st untracked img tOpt).2 img] :=
    List.mem_of_mem_drop hmi
  rcases List.mem_append.mp h2 with h | h
  · exact Or.inl h
  · right
    rw [List.mem_singleton.mp h]
    exact ⟨rfl, rfl, rfl⟩

/-- C3 -- After any single call to `track()`, no two instances in the
returned (and window-appended) list share the same track: each matched
instance carries a distinct candidate track (the matching function's column
indices are valid and distinct, hypotheses `hbound` and `hsnd`) and each
spawned instance carries a freshly allocated track distinct from every
candidate track (candidate tracks come from existing objects, hypothesis
`hfresh`) and from the other spawned ones. -/
theorem track_output_tracks_distinct (getC : GetCandidates) (sim : SimFun)
    (matcher : Matcher) (st : TrackerState) (untracked : List Instance)
    (img : Option Img) (tOpt : Option ℕ)
    (hsnd : ((trackMatches getC sim matcher st untracked img tOpt).map
      Prod.snd).Nodup)
    (hbound : ∀ p ∈ trackMatches getC sim matcher st untracked img tOpt,
      p.2 < (groupsOf getC st img tOpt).length)
    (hfresh : ∀ c ∈ candidatesOf getC st img tOpt, ∀ tr,
      c.track = some tr → tr.id < st.nextTrackId) :
    (((Tracker.track getC sim matcher st untracked img tOpt).2).map
      (fun x => x.track)).Nodup ∧
    ∀ mi ∈ (Tracker.track getC sim matcher st untracked img tOpt).1.queue,
      mi ∈ st.queue ∨
        mi.instances_t = (Tracker.track getC sim matcher st untracked img tOpt).2 := by
  have hout : (Tracker.track getC sim matcher st untracked img tOpt).2 =
      matchedInstancesOf getC sim matcher st untracked img tOpt ++
        (spawnPhase (inferT st tOpt) st.minNewTrackPoints
          ((trackMatches getC sim matcher st untracked img tOpt).map Prod.fst)
          untracked.enum st.spawnedTracks st.nextTrackId).1 := rfl
  constructor
  · rw [hout, List.map_append]
    refine List.Nodup.append ?_ ?_ ?_
    · rw [matchedInstancesOf_map_track getC sim matcher st untracked img tOpt hbound]
      have hmm : (trackMatches getC sim matcher st untracked img tOpt).map
          (fun p => ((groupsOf getC st img tOpt).getD p.2 (none, [])).1) =
          ((trackMatches getC sim matcher st untracked img tOpt).map Prod.snd).map
            (fun j => ((groupsOf getC st img tOpt).getD j (none, [])).1) := by
        rw [List.map_map]
        rfl
      rw [hmm]
      refine nodup_map_getD_fst hsnd ?_ (groupByTrack_keys_nodup _)
      intro j hj
      rcases List.mem_map.mp hj with ⟨p, hp, hpj⟩
      exact hpj ▸ hbound p hp
    · exact spawnPhase_nodup_tracks _ _ _ _ _ _
    · intro x hx hx'
      rw [matchedInstancesOf_map_track getC sim matcher st untracked img tOpt
        hbound] at hx
      rcases List.mem_map.mp hx with ⟨p, hp, hpx⟩
      rcases List.mem_map.mp hx' with ⟨out, hout', hox⟩
      obtain ⟨⟨tr', htr', hle⟩, _⟩ := spawnPhase_out_spec _ _ _ _ _ _ out hout'
      have hb := hbound p hp
      have hget : (groupsOf getC st img tOpt).getD p.2 (none, []) =
          (groupsOf getC st img tOpt)[p.2] := List.getD_eq_getElem _ _ hb
      have hgmem : (groupsOf getC st img tOpt)[p.2] ∈ groupsOf getC st img tOpt :=
        List.getElem_mem _
      have hkey : (groupsOf getC st img tOpt)[p.2].1 = some tr' := by
        rw [← hget, hpx, ← hox, htr']
      have := groups_key_lt getC st img tOpt hfresh _ hgmem tr' hkey
      omega
  · intro mi hmi
    rcases track_queue_mem getC sim matcher st untracked img tOpt mi hmi with h | h
    · exact Or.inl h
    · exact Or.inr h.2.1

/-- Witness for C3: a fresh tracker given one instance and an empty window
spawns one track; the output tracks are distinct and the window holds the
output. -/
theorem track_output_tracks_distinct_witness :
    (((Tracker.track (SimpleCandidateMaker.get_candidates 0)
        (fun _ _ => none) greedy_matching {} [{ points := [] }] none none).2).map
      (fun x => x.track)).Nodup ∧
    ∀ mi ∈ (Tracker.track (SimpleCandidateMaker.get_candidates 0)
        (fun _ _ => none) greedy_matching {} [{ points := [] }] none none).1.queue,
      mi ∈ ({} : TrackerState).queue ∨
        mi.instances_t = (Tracker.track (SimpleCandidateMaker.get_candidates 0)
          (fun _ _ => none) greedy_matching {} [{ points := [] }] none none).2 := by
  refine track_output_tracks_distinct _ _ _ _ _ _ _ (by decide) (by decide) ?_
  intro c hc tr htr
  have hc' : c ∈ ([] : List Instance) := hc
  cases hc'

/-- C9 (counterexample) -- `Tracker.track` (tracking.py:518) stores whatever
image it was given in the appended `MatchedInstance` unconditionally: with the
simple candidate maker, whose `uses_image` is `false`, a call that is passed
an image leaves that image in the sliding window, contradicting the claim
that the window entry holds no image when `uses_image` is false. -/
theorem track_stores_image_despite_simple_maker :
    SimpleCandidateMaker.uses_image = false ∧
    ¬ (∀ mi ∈ (Tracker.track (SimpleCandidateMaker.get_candidates 0)
        (fun _ _ => none) greedy_matching {} [] (some 7) none).1.queue,
        mi.img_t = none) := by
  refine ⟨rfl, ?_⟩
  intro h
  exact absurd (h (MatchedInstance.mk 0 [] (some 7)) (by decide)) (by decide)

/-- C9 (amended) -- The `MatchedInstance` appended to the sliding window by a
`track()` call holds exactly the image argument passed to that call (so the
window holds no image precisely when the caller passes none, as `run_tracker`
does whenever the active candidate maker reports `uses_image = false`); the
other window entries are carried over unchanged. -/
theorem track_window_entry_image (getC : GetCandidates) (sim : SimFun)
    (matcher : Matcher) (st : TrackerState) (untracked : List Instance)
    (img : Option Img) (tOpt : Option ℕ) :
    ∀ mi ∈ (Tracker.track getC sim matcher st untracked img tOpt).1.queue,
      mi ∈ st.queue ∨ mi.img_t = img := by
  intro mi hmi
  rcases track_queue_mem getC sim matcher st untracked img tOpt mi hmi with h | h
  · exact Or.inl h
  · exact Or.inr h.2.2

/-- Witness for C9 (amended): the window entry appended by an image-less call
holds no image. -/
theorem track_window_entry_image_witness :
    MatchedInstance.mk 0 [] none ∈ ({} : TrackerState).queue ∨
      (MatchedInstance.mk 0 [] none).img_t = (none : Option Img) :=
  track_window_entry_image (SimpleCandidateMaker.get_candidates 0)
    (fun _ _ => none) greedy_matching {} [] none none
    (MatchedInstance.mk 0 [] none) (by decide)

/-- C7 -- An untracked instance at index `i` that the matching step leaves
unassigned and whose visible-point count is strictly below
`min_new_track_points` is dropped entirely: nothing derived from it (same
`uid`) appears in the returned list or in the window entry appended by the
call, and the spawned-track log grows only by the eligible instances, a set
that excludes `i`.  Hypothesis `hfstb` states that the matching function's
row indices are in range (out-of-range rows raise `IndexError` in the
source); `huids` states the untracked instances are distinct detections. -/
theorem track_drops_small_unmatched (getC : GetCandidates) (sim : SimFun)
    (matcher : Matcher) (st : TrackerState) (untracked : List Instance)
    (img : Option Img) (tOpt : Option ℕ) (i : ℕ)
    (hi : i < untracked.length)
    (hfstb : ∀ p ∈ trackMatches getC sim matcher st untracked img tOpt,
      p.1 < untracked.length)
    (hunmatched : i ∉ (trackMatches getC sim matcher st untracked img tOpt).map
      Prod.fst)
    (hsmall : (untracked.getD i default).nVisiblePoints < st.minNewTrackPoints)
    (huids : (untracked.map (fun u => u.uid)).Nodup) :
    (∀ out ∈ (Tracker.track getC sim matcher st untracked img tOpt).2,
      out.uid ≠ (untracked.getD i default).uid) ∧
    (∀ mi ∈ (Tracker.track getC sim matcher st untracked img tOpt).1.queue,
      mi ∈ st.queue ∨
        ∀ out ∈ mi.instances_t, out.uid ≠ (untracked.getD i default).uid) ∧
    (Tracker.track getC sim matcher st untracked img tOpt).1.spawnedTracks.length =
      st.spawnedTracks.length +
        (eligiblePairs st.minNewTrackPoints
          ((trackMatches getC sim matcher st untracked img tOpt).map Prod.fst)
          untracked.enum).length ∧
    i ∉ (eligiblePairs st.minNewTrackPoints
        ((trackMatches getC sim matcher st untracked img tOpt).map Prod.fst)
        untracked.enum).map Prod.fst := by
  have huid_ne : ∀ k, k < untracked.length → k ≠ i →
      (untracked.getD k default).uid ≠ (untracked.getD i default).uid := by
    intro k hk hne heq
    rw [List.getD_eq_getElem _ _ hk, List.getD_eq_getElem _ _ hi] at heq
    have hkm : k < (untracked.map (fun u => u.uid)).length := by simpa using hk
    have him : i < (untracked.map (fun u => u.uid)).length := by simpa using hi
    have hm : (untracked.map (fun u => u.uid))[k] =
        (untracked.map (fun u => u.uid))[i] := by
      rw [List.getElem_map, List.getElem_map]
      exact heq
    exact hne ((List.Nodup.getElem_inj_iff huids).mp hm)
  have hout : (Tracker.track getC sim matcher st untracked img tOpt).2 =
      matchedInstancesOf getC sim matcher st untracked img tOpt ++
        (spawnPhase (inferT st tOpt) st.minNewTrackPoints
          ((trackMatches getC sim matcher st untracked img tOpt).map Prod.fst)
          untracked.enum st.spawnedTracks st.nextTrackId).1 := rfl
  have hmain : ∀ out ∈ (Tracker.track getC sim matcher st untracked img tOpt).2,
      out.uid ≠ (untracked.getD i default).uid := by
    intro out hmem
    rw [hout] at hmem
    rcases List.mem_append.mp hmem with h | h
    · rcases List.mem_map.mp h with ⟨p, hp, hpe⟩
      have hlt := hfstb p hp
      have hne : p.1 ≠ i := by
        intro he
        exact hunmatched (he ▸ List.mem_map_of_mem Prod.fst hp)
      have huid : out.uid = (untracked.getD p.1 default).uid := by
        rw [← hpe]
      rw [huid]
      exact huid_ne p.1 hlt hne
    · obtain ⟨_, p, hpl, hnotin, hvis, hud⟩ :=
        spawnPhase_out_spec _ _ _ _ _ _ out h
      have hpl' := List.mem_enum_iff_getElem?.mp hpl
      rw [List.getElem?_eq_some] at hpl'
      obtain ⟨hplt, hpval⟩ := hpl'
      have hgd : untracked.getD p.1 default = p.2 := by
        rw [List.getD_eq_getElem _ _ hplt, hpval]
      have hne : p.1 ≠ i := by
        intro he
        rw [he] at hgd
        rw [hgd] at hsmall
        omega
      have huid : out.uid = (untracked.getD p.1 default).uid := by
        rw [hud, hgd]
      rw [huid]
      exact huid_ne p.1 hplt hne
  refine ⟨hmain, ?_, ?_, ?_⟩
  · intro mi hmi
    rcases track_queue_mem getC sim matcher st untracked img tOpt mi hmi with h | h
    · exact Or.inl h
    · right
      rw [h.2.1]
      exact hmain
  · exact spawnPhase_spawned_count _ _ _ _ _ _
  · intro hmem
    rcases List.mem_map.mp hmem with ⟨p, hp, hpi⟩
    rw [eligiblePairs, List.mem_filter] at hp
    obtain ⟨hpl, hcond⟩ := hp
    simp only [decide_eq_true_eq] at hcond
    have hpl' := List.mem_enum_iff_getElem?.mp hpl
    rw [List.getElem?_eq_some] at hpl'
    obtain ⟨hplt, hpval⟩ := hpl'
    have hgd : untracked.getD p.1 default = p.2 := by
      rw [List.getD_eq_getElem _ _ hplt, hpval]
    rw [hpi] at hgd
    rw [hgd] at hsmall
    omega

/-- Witness for C7: one instance with no visible points, spawn threshold 1,
empty window: the instance is dropped, the output and appended window entry
are empty of it, and no track is spawned. -/
theorem track_drops_small_unmatched_witness :
    (∀ out ∈ (Tracker.track (SimpleCandidateMaker.get_candidates 0)
        (fun _ _ => none) greedy_matching { minNewTrackPoints := 1 }
        [{ points := [] }] none none).2,
      out.uid ≠ (([{ points := [] }] : List Instance).getD 0 default).uid) ∧
    (∀ mi ∈ (Tracker.track (SimpleCandidateMaker.get_candidates 0)
        (fun _ _ => none) greedy_matching { minNewTrackPoints := 1 }
        [{ points := [] }] none none).1.queue,
      mi ∈ ({ minNewTrackPoints := 1 } : TrackerState).queue ∨
        ∀ out ∈ mi.instances_t,
          out.uid ≠ (([{ points := [] }] : List Instance).getD 0 default).uid) ∧
    (Tracker.track (SimpleCandidateMaker.get_candidates 0) (fun _ _ => none)
        greedy_matching { minNewTrackPoints := 1 }
        [{ points := [] }] none none).1.spawnedTracks.length =
      ({ minNewTrackPoints := 1 } : TrackerState).spawnedTracks.length +
        (eligiblePairs 1
          ((trackMatches (SimpleCandidateMaker.get_candidates 0) (fun _ _ => none)
            greedy_matching { minNewTrackPoints := 1 }
            [{ points := [] }] none none).map Prod.fst)
          ([{ points := [] }] : List Instance).enum).length ∧
    0 ∉ (eligiblePairs 1
        ((trackMatches (SimpleCandidateMaker.get_candidates 0) (fun _ _ => none)
          greedy_matching { minNewTrackPoints := 1 }
          [{ points := [] }] none none).map Prod.fst)
        ([{ points := [] }] : List Instance).enum).map Prod.fst :=
  track_drops_small_unmatched (SimpleCandidateMaker.get_candidates 0)
    (fun _ _ => none) greedy_matching { minNewTrackPoints := 1 }
    [{ points := [] }] none none 0 (by decide) (by decide) (by decide)
    (by decide) (by decide)

/-- A labeled frame as the cleaner sees it (sleap.io.dataset `LabeledFrame`):
frame index plus its instance list.  The cleaner operates on tracker output,
where `predicted_instances` and `instances` are the same list. -/
structure LabeledFrame where
  frameIdx : ℕ
  instances : List Instance
deriving DecidableEq, Repr

/-- The frame ordering used by `frames.sort(key=lambda lf: lf.frame_idx)`
(tracking.py:717). -/
def frameLE (a b : LabeledFrame) : Prop :=
  a.frameIdx ≤ b.frameIdx

instance : DecidableRel frameLE :=
  fun a b => Nat.decLe a.frameIdx b.frameIdx

instance : IsTotal LabeledFrame frameLE :=
  ⟨fun a b => Nat.le_total a.frameIdx b.frameIdx⟩

instance : IsTrans LabeledFrame frameLE :=
  ⟨fun _ _ _ h1 h2 => Nat.le_trans h1 h2⟩

/-- The instance ordering used by `sorted(..., key=attrgetter("score"))`
(tracking.py:724-726). -/
def scoreLE (a b : Instance) : Prop :=
  a.score ≤ b.score

instance : DecidableRel scoreLE :=
  fun a b => Rat.instDecidableLe a.score b.score

/-- The capping step of `TrackCleaner.run` (tracking.py:719-731) on one
frame: when the frame holds more instances than `instance_count`, sort them
by ascending score (stably) and remove, first occurrence each, all but the
last `instance_count` of the sorted list (`sorted(...)[: -instance_count]`;
for `instance_count = 0` that Python slice is empty, so nothing is
removed). -/
def capFrame (count : ℕ) (lf : LabeledFrame) : LabeledFrame :=
  if lf.instances.length > count then
    { lf with instances :=
        (if count = 0 then []
         else (lf.instances.insertionSort scoreLE).take
          (lf.instances.length - count)).foldl (fun l x => l.erase x) lf.instances }
  else lf

/-- `fix_track_map` (tracking.py:734): a Python dict from retired track to
replacement track, as an insertion-ordered association list. -/
abbrev FixMap := List (Option Track × Option Track)

/-- Dict lookup. -/
def lookupFix : FixMap → Option Track → Option (Option Track)
  | [], _ => none
  | p :: ps, k => if p.1 = k then some p.2 else lookupFix ps k

/-- Dict store (`fix_track_map[old] = new`): overwrite or append. -/
def updateFix (m : FixMap) (k v : Option Track) : FixMap :=
  if (lookupFix m k).isSome then
    m.map (fun p => if p.1 = k then (k, v) else p)
  else m ++ [(k, v)]

/-- Dict key list. -/
def fixKeys (m : FixMap) : List (Option Track) :=
  m.map Prod.fst

/-- `{inst.track for inst in instances}` -- the set of tracks of a frame. -/
def tracksOf (insts : List Instance) : Finset (Option Track) :=
  (insts.map (fun i => i.track)).toFinset

/-- An injective key ordering optional tracks, so that the unique element of
a singleton track set can be extracted computably (`set.pop()` on a
one-element Python set). -/
def otKey : Option Track → ℕ ×ₗ (ℕ ×ₗ (ℕ ×ₗ ℕ))
  | none => toLex (0, toLex (0, toLex (0, 0)))
  | some t => toLex (1, toLex (t.id, toLex (t.spawnedOn, t.name)))

lemma otKey_injective : Function.Injective otKey := by
  intro a b h
  match a, b with
  | none, none => rfl
  | none, some t =>
    have h1 := congrArg (fun p => (ofLex p).1) h
    simp [otKey] at h1
  | some t, none =>
    have h1 := congrArg (fun p => (ofLex p).1) h
    simp [otKey] at h1
  | some t, some u =>
    have h2 := congrArg (fun p => (ofLex (ofLex p).2).1) h
    have h3 := congrArg (fun p => (ofLex (ofLex (ofLex p).2).2).1) h
    have h4 := congrArg (fun p => (ofLex (ofLex (ofLex p).2).2).2) h
    simp only [otKey] at h2 h3 h4
    cases t
    cases u
    simp_all

instance : LinearOrder (Option Track) :=
  LinearOrder.lift' otKey otKey_injective

/-- The unique element of a singleton finite set (`set.pop()` on a
one-element set); on other sets, the least element under the key order. -/
def pickOne (s : Finset (Option Track)) : Option Track :=
  s.min.untop' none

/-- The lazy rewrite loop of `TrackCleaner.run` (tracking.py:741-747): walk
the instances in order; rewrite an instance's track to its replacement under
`fix` when that replacement is not currently among the frame's tracks; the
track set is recomputed after each rewrite. -/
def applyFixGo (fix : FixMap) (acc : List Instance) : List Instance → List Instance
  | [] => acc
  | inst :: rest =>
    match lookupFix fix inst.track with
    | some repl =>
      if repl ∉ tracksOf (acc ++ inst :: rest) then
        applyFixGo fix (acc ++ [{ inst with track := repl }]) rest
      else applyFixGo fix (acc ++ [inst]) rest
    | none => applyFixGo fix (acc ++ [inst]) rest

/-- The guarded rewrite (tracking.py:739-747): the loop runs only when some
frame track is a key of the fix map. -/
def applyFix (fix : FixMap) (insts : List Instance) : List Instance :=
  if (tracksOf insts ∩ (fixKeys fix).toFinset).Nonempty then applyFixGo fix [] insts
  else insts

/-- The heal relabel (tracking.py:752-760): rewrite the first instance whose
track lies in `extra` to the missing track `m`, then stop. -/
def relabelFirst (extra : Finset (Option Track)) (m : Option Track) :
    List Instance → List Instance
  | [] => []
  | inst :: rest =>
    if inst.track ∈ extra then { inst with track := m } :: rest
    else inst :: relabelFirst extra m rest

/-- One frame of the healing pass (tracking.py:736-763): apply the lazy
rewrites, compute the extra and missing track sets against
`last_good_frame_tracks`, heal a one-extra/one-missing frame by relabelling
the extra instance to the missing track (recording the mapping), and
otherwise re-anchor the good-track set when the frame has exactly
`instance_count` tracks. -/
def healStep (count : ℕ) (fix : FixMap) (lg : Finset (Option Track))
    (lf : LabeledFrame) : (FixMap × Finset (Option Track)) × LabeledFrame :=
  if (tracksOf (applyFix fix lf.instances) \ lg).card = 1 ∧
      (lg \ tracksOf (applyFix fix lf.instances)).card = 1 then
    ((updateFix fix (pickOne (tracksOf (applyFix fix lf.instances) \ lg))
        (pickOne (lg \ tracksOf (applyFix fix lf.instances))), lg),
      { lf with instances :=
          (relabelFirst (tracksOf (applyFix fix lf.instances) \ lg)
            (pickOne (lg \ tracksOf (applyFix fix lf.instances)))
            (applyFix fix lf.instances)) })
  else
    ((fix, if (tracksOf (applyFix fix lf.instances)).card = count
        then tracksOf (applyFix fix lf.instances) else lg),
      { lf with instances := applyFix fix lf.instances })

/-- The healing pass over the frame sequence, threading the fix map and the
good-track set. -/
def healFrames (count : ℕ) : FixMap → Finset (Option Track) →
    List LabeledFrame → List LabeledFrame
  | _, _, [] => []
  | fix, lg, lf :: rest =>
    (healStep count fix lg lf).2 ::
      healFrames count (healStep count fix lg lf).1.1
        (healStep count fix lg lf).1.2 rest

/-- `TrackCleaner.run` (tracking.py:706-763): sort the frames by frame
index, cap each frame's instance count by score, then heal identity breaks in
one pass.  The source reads `frames[0]` and so raises `IndexError` on an
empty list; the empty case is modelled as the empty output. -/
def TrackCleaner.run (count : ℕ) (frames : List LabeledFrame) :
    List LabeledFrame :=
  match (frames.insertionSort frameLE).map (capFrame count) with
  | [] => []
  | f0 :: rest =>
    healFrames count [] (tracksOf f0.instances) (f0 :: rest)

/-- Tracks of the C8 counterexample (distinct object identities). -/
def c8A : Option Track := some { id := 0, spawnedOn := 0, name := 0 }

def c8E : Option Track := some { id := 1, spawnedOn := 0, name := 1 }

def c8X : Option Track := some { id := 2, spawnedOn := 0, name := 2 }

/-- The C8 counterexample frames: frame 1 holds two instances on the same
track `e`. -/
def c8Frames : List LabeledFrame :=
  [{ frameIdx := 0, instances := [{ points := [], track := c8A, uid := 0 }] },
   { frameIdx := 1, instances := [{ points := [], track := c8E, uid := 1 },
                                  { points := [], track := c8E, uid := 2 }] },
   { frameIdx := 2, instances := [{ points := [], track := c8X, uid := 3 },
                                  { points := [], track := c8A, uid := 4 }] }]

/-- C8 (counterexample) -- `TrackCleaner.run` is not idempotent on every
list of labeled frames: with `instance_count = 2` and frames `[{a}]`,
`[{e}, {e}]`, `[{x}, {a}]` (frame 1 holds two instances on one track), the
first run relabels only the first `e`-instance (the loop breaks after one
rewrite), leaving tracks `{a, e}` in frame 1; the second run re-anchors on
that frame and then heals frame 2 (`x` to `e`), so running the cleaner twice
changes the frames again. -/
theorem cleaner_run_not_idempotent :
    TrackCleaner.run 2 (TrackCleaner.run 2 c8Frames) ≠
      TrackCleaner.run 2 c8Frames := by
  decide

lemma tracksOf_cons (x : Instance) (l : List Instance) :
    tracksOf (x :: l) = insert x.track (tracksOf l) := by
  simp [tracksOf]

lemma mem_tracksOf {a : Option Track} {l : List Instance} :
    a ∈ tracksOf l ↔ a ∈ l.map (fun i => i.track) := by
  simp [tracksOf]

lemma applyFix_nil (insts : List Instance) : applyFix [] insts = insts := by
  simp [applyFix, fixKeys]

lemma applyFixGo_length (fix : FixMap) :
    ∀ (rest acc : List Instance),
      (applyFixGo fix acc rest).length = acc.length + rest.length := by
  intro rest
  induction rest with
  | nil => intro acc; simp [applyFixGo]
  | cons inst rest ih =>
    intro acc
    cases hlook : lookupFix fix inst.track with
    | some repl =>
      by_cases h : repl ∉ tracksOf (acc ++ inst :: rest)
      · simp only [applyFixGo, hlook, if_pos h, ih]
        simp
        omega
      · simp only [applyFixGo, hlook, if_neg h, ih]
        simp
        omega
    | none =>
      simp only [applyFixGo, hlook, ih]
      simp
      omega

lemma applyFix_length (fix : FixMap) (insts : List Instance) :
    (applyFix fix insts).length = insts.length := by
  unfold applyFix
  split
  · rw [applyFixGo_length]
    simp
  · rfl

lemma nodup_replace_middle {A B : List Instance} {x x' : Instance}
    (hn : ((A ++ x :: B).map (fun i => i.track)).Nodup)
    (hx' : x'.track ∉ (A ++ x :: B).map (fun i => i.track)) :
    ((A ++ x' :: B).map (fun i => i.track)).Nodup := by
  rw [List.map_append, List.map_cons] at hn hx' ⊢
  rw [List.nodup_middle] at hn ⊢
  rw [List.nodup_cons] at hn ⊢
  refine ⟨?_, hn.2⟩
  intro hmem
  apply hx'
  rcases List.mem_append.mp hmem with h | h
  · exact List.mem_append.mpr (Or.inl h)
  · exact List.mem_append.mpr (Or.inr (List.mem_cons_of_mem _ h))

lemma applyFixGo_nodup (fix : FixMap) :
    ∀ (rest acc : List Instance),
      (((acc ++ rest).map (fun i => i.track)).Nodup) →
      ((applyFixGo fix acc rest).map (fun i => i.track)).Nodup := by
  intro rest
  induction rest with
  | nil =>
    intro acc hn
    rw [applyFixGo]
    simpa using hn
  | cons inst rest ih =>
    intro acc hn
    cases hlook : lookupFix fix inst.track with
    | some repl =>
      by_cases h : repl ∉ tracksOf (acc ++ inst :: rest)
      · simp only [applyFixGo, hlook, if_pos h]
        refine ih _ ?_
        have hx' : repl ∉ ((acc ++ inst :: rest).map (fun i => i.track)) := by
          rw [← mem_tracksOf]
          exact h
        have := @nodup_replace_middle acc rest inst { inst with track := repl } hn
          (by simpa using hx')
        simpa using this
      · simp only [applyFixGo, hlook, if_neg h]
        refine ih _ ?_
        simpa using hn
    | none =>
      simp only [applyFixGo, hlook]
      refine ih _ ?_
      simpa using hn

lemma applyFix_nodup (fix : FixMap) (insts : List Instance)
    (hn : (insts.map (fun i => i.track)).Nodup) :
    ((applyFix fix insts).map (fun i => i.track)).Nodup := by
  unfold applyFix
  split
  · exact applyFixGo_nodup fix insts [] (by simpa using hn)
  · exact hn

lemma relabelFirst_length (extra : Finset (Option Track)) (m : Option Track) :
    ∀ (l : List Instance), (relabelFirst extra m l).length = l.length := by
  intro l
  induction l with
  | nil => rfl
  | cons inst rest ih =>
    rw [relabelFirst]
    split
    · simp
    · simp [ih]

lemma relabelFirst_tracks (e m : Option Track) :
    ∀ (l : List Instance),
      ((l.map (fun i => i.track)).Nodup) → e ∈ tracksOf l → m ∉ tracksOf l →
      tracksOf (relabelFirst {e} m l) = insert m ((tracksOf l).erase e) ∧
        ((relabelFirst {e} m l).map (fun i => i.track)).Nodup := by
  intro l
  induction l with
  | nil =>
    intro _ he _
    simp [tracksOf] at he
  | cons inst rest ih =>
    intro hn he hm
    rw [List.map_cons, List.nodup_cons] at hn
    rw [relabelFirst]
    by_cases hd : inst.track ∈ ({e} : Finset (Option Track))
    · rw [if_pos hd]
      have hie : inst.track = e := Finset.mem_singleton.mp hd
      have herest : e ∉ tracksOf rest := by
        rw [mem_tracksOf, ← hie]
        exact hn.1
      constructor
      · rw [tracksOf_cons, tracksOf_cons]
        show insert m (tracksOf rest) = insert m ((insert inst.track (tracksOf rest)).erase e)
        rw [hie, Finset.erase_insert herest]
      · rw [List.map_cons, List.nodup_cons]
        refine ⟨?_, hn.2⟩
        intro hmem
        apply hm
        rw [tracksOf_cons]
        exact Finset.mem_insert_of_mem (mem_tracksOf.mpr (by simpa using hmem))
    · rw [if_neg hd]
      have hie : inst.track ≠ e := fun h => hd (Finset.mem_singleton.mpr h)
      have herest : e ∈ tracksOf rest := by
        rw [tracksOf_cons] at he
        rcases Finset.mem_insert.mp he with h | h
        · exact absurd h.symm hie
        · exact h
      have hmrest : m ∉ tracksOf rest := by
        intro h
        exact hm (by rw [tracksOf_cons]; exact Finset.mem_insert_of_mem h)
      obtain ⟨ht, hnd⟩ := ih hn.2 herest hmrest
      constructor
      · rw [tracksOf_cons, ht, tracksOf_cons]
        rw [Finset.erase_insert_of_ne hie]
        rw [Finset.Insert.comm]
      · rw [List.map_cons, List.nodup_cons]
        refine ⟨?_, hnd⟩
        intro hmem
        have : inst.track ∈ tracksOf (relabelFirst {e} m rest) := mem_tracksOf.mpr hmem
        rw [ht] at this
        rcases Finset.mem_insert.mp this with h | h
        · exact hm (by rw [tracksOf_cons, h]; exact Finset.mem_insert_self _ _)
        · exact hn.1 (mem_tracksOf.mp (Finset.mem_of_mem_erase h))

lemma pickOne_singleton (a : Option Track) : pickOne {a} = a := by
  rw [pickOne, Finset.min_singleton, WithTop.untop'_coe]

lemma healStep_frameIdx (count : ℕ) (fix : FixMap) (lg : Finset (Option Track))
    (lf : LabeledFrame) : (healStep count fix lg lf).2.frameIdx = lf.frameIdx := by
  unfold healStep
  split <;> rfl

lemma healStep_length (count : ℕ) (fix : FixMap) (lg : Finset (Option Track))
    (lf : LabeledFrame) :
    (healStep count fix lg lf).2.instances.length = lf.instances.length := by
  unfold healStep
  split
  · show (relabelFirst _ _ _).length = _
    rw [relabelFirst_length, applyFix_length]
  · show (applyFix fix lf.instances).length = _
    rw [applyFix_length]

/-- The key step lemma: a second healing pass, started on the healed frame
with an empty fix map and the same good-track set, changes nothing and
reproduces the first pass's post-state; the healed frame keeps distinct
tracks, and the good-track set keeps at most `instance_count` tracks. -/
lemma healStep_fixpoint (count : ℕ) (fix : FixMap) (lg : Finset (Option Track))
    (lf : LabeledFrame)
    (hn : (lf.instances.map (fun i => i.track)).Nodup)
    (hlg : count = 0 ∨ lg.card ≤ count) :
    healStep count [] lg (healStep count fix lg lf).2 =
      (([], (healStep count fix lg lf).1.2), (healStep count fix lg lf).2) ∧
    ((healStep count fix lg lf).2.instances.map (fun i => i.track)).Nodup ∧
    (count = 0 ∨ (healStep count fix lg lf).1.2.card ≤ count) := by
  have hn1 : ((applyFix fix lf.instances).map (fun i => i.track)).Nodup :=
    applyFix_nodup fix lf.instances hn
  by_cases hcond : (tracksOf (applyFix fix lf.instances) \ lg).card = 1 ∧
      (lg \ tracksOf (applyFix fix lf.instances)).card = 1
  · obtain ⟨e, he⟩ := Finset.card_eq_one.mp hcond.1
    obtain ⟨m, hm⟩ := Finset.card_eq_one.mp hcond.2
    have hemem : e ∈ tracksOf (applyFix fix lf.instances) \ lg := by
      rw [he]; exact Finset.mem_singleton_self e
    have hmmem : m ∈ lg \ tracksOf (applyFix fix lf.instances) := by
      rw [hm]; exact Finset.mem_singleton_self m
    have heft : e ∈ tracksOf (applyFix fix lf.instances) := (Finset.mem_sdiff.mp hemem).1
    have hmlg : m ∈ lg := (Finset.mem_sdiff.mp hmmem).1
    have hmft : m ∉ tracksOf (applyFix fix lf.instances) := (Finset.mem_sdiff.mp hmmem).2
    have hstep : healStep count fix lg lf =
        ((updateFix fix e m, lg),
          { lf with instances :=
              (relabelFirst {e} m (applyFix fix lf.instances)) }) := by
      unfold healStep
      rw [if_pos hcond, he, hm, pickOne_singleton, pickOne_singleton]
    obtain ⟨ht2, hnd2⟩ := relabelFirst_tracks e m (applyFix fix lf.instances) hn1 heft hmft
    have hsub : tracksOf (relabelFirst {e} m (applyFix fix lf.instances)) ⊆ lg := by
      rw [ht2]
      refine Finset.insert_subset_iff.mpr ⟨hmlg, ?_⟩
      intro x hx
      have hxft := Finset.mem_of_mem_erase hx
      have hxne := Finset.ne_of_mem_erase hx
      by_contra hxlg
      have hxex : x ∈ tracksOf (applyFix fix lf.instances) \ lg :=
        Finset.mem_sdiff.mpr ⟨hxft, hxlg⟩
      rw [he] at hxex
      exact hxne (Finset.mem_singleton.mp hxex)
    rw [hstep]
    refine ⟨?_, by simpa using hnd2, by simpa using hlg⟩
    have hfix2 : applyFix []
        ({ lf with instances := (relabelFirst {e} m (applyFix fix lf.instances)) }
          : LabeledFrame).instances =
        relabelFirst {e} m (applyFix fix lf.instances) := applyFix_nil _
    have hempty : tracksOf (relabelFirst {e} m (applyFix fix lf.instances)) \ lg = ∅ :=
      Finset.sdiff_eq_empty_iff_subset.mpr hsub
    have hcond2 : ¬((tracksOf (applyFix []
        ({ lf with instances := (relabelFirst {e} m (applyFix fix lf.instances)) }
          : LabeledFrame).instances) \ lg).card = 1 ∧
        (lg \ tracksOf (applyFix []
          ({ lf with instances := (relabelFirst {e} m (applyFix fix lf.instances)) }
            : LabeledFrame).instances)).card = 1) := by
      rw [hfix2, hempty]
      simp
    unfold healStep
    rw [if_neg hcond2]
    have hifval : (if (tracksOf (applyFix []
        ({ lf with instances := (relabelFirst {e} m (applyFix fix lf.instances)) }
          : LabeledFrame).instances)).card = count
        then tracksOf (applyFix []
          ({ lf with instances := (relabelFirst {e} m (applyFix fix lf.instances)) }
            : LabeledFrame).instances) else lg) = lg := by
      rw [hfix2]
      by_cases hc2 : (tracksOf (relabelFirst {e} m (applyFix fix lf.instances))).card = count
      · rw [if_pos hc2]
        rcases hlg with h0 | hle
        · exfalso
          rw [h0] at hc2
          have : m ∈ tracksOf (relabelFirst {e} m (applyFix fix lf.instances)) := by
            rw [ht2]; exact Finset.mem_insert_self _ _
          rw [Finset.card_eq_zero.mp hc2] at this
          cases this
        · exact Finset.eq_of_subset_of_card_le hsub (by omega)
      · rw [if_neg hc2]
    rw [hifval, hfix2]
  · have hstep : healStep count fix lg lf =
        ((fix, if (tracksOf (applyFix fix lf.instances)).card = count
            then tracksOf (applyFix fix lf.instances) else lg),
          { lf with instances := applyFix fix lf.instances }) := by
      unfold healStep
      rw [if_neg hcond]
    rw [hstep]
    have hfix2 : applyFix []
        ({ lf with instances := applyFix fix lf.instances } : LabeledFrame).instances =
        applyFix fix lf.instances := applyFix_nil _
    refine ⟨?_, by simpa using hn1, ?_⟩
    · have hcond2 : ¬((tracksOf (applyFix []
          ({ lf with instances := applyFix fix lf.instances }
            : LabeledFrame).instances) \ lg).card = 1 ∧
          (lg \ tracksOf (applyFix []
            ({ lf with instances := applyFix fix lf.instances }
              : LabeledFrame).instances)).card = 1) := by
        rw [hfix2]
        exact hcond
      unfold healStep
      rw [if_neg hcond2]
      rw [hfix2]
    · show count = 0 ∨ (if (tracksOf (applyFix fix lf.instances)).card = count
          then tracksOf (applyFix fix lf.instances) else lg).card ≤ count
      by_cases hc2 : (tracksOf (applyFix fix lf.instances)).card = count
      · rw [if_pos hc2]
        right
        omega
      · rw [if_neg hc2]
        exact hlg

lemma healFrames_fixpoint (count : ℕ) :
    ∀ (frames : List LabeledFrame) (fix : FixMap) (lg : Finset (Option Track)),
      (∀ lf ∈ frames, (lf.instances.map (fun i => i.track)).Nodup) →
      (count = 0 ∨ lg.card ≤ count) →
      healFrames count [] lg (healFrames count fix lg frames) =
        healFrames count fix lg frames := by
  intro frames
  induction frames with
  | nil => intro fix lg _ _; rfl
  | cons lf rest ih =>
    intro fix lg hn hlg
    obtain ⟨hfp, hnd, hlg'⟩ := healStep_fixpoint count fix lg lf
      (hn lf (List.mem_cons_self _ _)) hlg
    simp only [healFrames]
    rw [hfp]
    dsimp only
    rw [ih _ _ (fun x hx => hn x (List.mem_cons_of_mem _ hx)) hlg']

lemma healFrames_map_frameIdx (count : ℕ) :
    ∀ (frames : List LabeledFrame) (fix : FixMap) (lg : Finset (Option Track)),
      (healFrames count fix lg frames).map (fun lf => lf.frameIdx) =
        frames.map (fun lf => lf.frameIdx) := by
  intro frames
  induction frames with
  | nil => intro fix lg; rfl
  | cons lf rest ih =>
    intro fix lg
    simp only [healFrames, List.map_cons]
    rw [healStep_frameIdx, ih]

lemma healFrames_exists_length (count : ℕ) :
    ∀ (frames : List LabeledFrame) (fix : FixMap) (lg : Finset (Option Track)),
      ∀ lf' ∈ healFrames count fix lg frames,
        ∃ lf ∈ frames, lf'.instances.length = lf.instances.length := by
  intro frames
  induction frames with
  | nil => intro fix lg lf' h; cases h
  | cons lf rest ih =>
    intro fix lg lf' h
    simp only [healFrames] at h
    rcases List.mem_cons.mp h with h1 | h1
    · exact ⟨lf, List.mem_cons_self _ _, h1 ▸ healStep_length count fix lg lf⟩
    · obtain ⟨lf0, hlf0, hlen⟩ := ih _ _ lf' h1
      exact ⟨lf0, List.mem_cons_of_mem _ hlf0, hlen⟩

lemma capFrame_frameIdx (count : ℕ) (lf : LabeledFrame) :
    (capFrame count lf).frameIdx = lf.frameIdx := by
  unfold capFrame
  split <;> rfl

lemma capFrame_zero (lf : LabeledFrame) : capFrame 0 lf = lf := by
  unfold capFrame
  split
  · simp
  · rfl

lemma capFrame_length_le (count : ℕ) (lf : LabeledFrame) (hc : 0 < count) :
    (capFrame count lf).instances.length ≤ count := by
  unfold capFrame
  split
  case isTrue h =>
    have hcount0 : ¬ count = 0 := by omega
    rw [if_neg hcount0]
    show (((lf.instances.insertionSort scoreLE).take
      (lf.instances.length - count)).foldl (fun l x => l.erase x)
        lf.instances).length ≤ count
    rw [← List.diff_eq_foldl]
    have hsub : List.Subperm ((lf.instances.insertionSort scoreLE).take
        (lf.instances.length - count)) lf.instances :=
      ((List.take_sublist _ _).subperm).trans
        (List.perm_insertionSort scoreLE lf.instances).subperm
    have hle : (((lf.instances.insertionSort scoreLE).take
        (lf.instances.length - count) : List Instance) : Multiset Instance) ≤
        (lf.instances : Multiset Instance) := Multiset.coe_le.mpr hsub
    have h1 := Multiset.card_sub hle
    rw [Multiset.coe_sub] at h1
    rw [Multiset.coe_card, Multiset.coe_card, Multiset.coe_card] at h1
    have hext : ((lf.instances.insertionSort scoreLE).take
        (lf.instances.length - count)).length = lf.instances.length - count := by
      rw [List.length_take, List.length_insertionSort]
      omega
    omega
  case isFalse h => omega

lemma capFrame_nodup (count : ℕ) (lf : LabeledFrame)
    (hn : (lf.instances.map (fun i => i.track)).Nodup) :
    ((capFrame count lf).instances.map (fun i => i.track)).Nodup := by
  unfold capFrame
  split
  · show (((if count = 0 then []
      else (lf.instances.insertionSort scoreLE).take
        (lf.instances.length - count)).foldl (fun l x => l.erase x)
        lf.instances).map (fun i => i.track)).Nodup
    rw [← List.diff_eq_foldl]
    exact List.Nodup.sublist (List.Sublist.map _ (List.diff_sublist _ _)) hn
  · exact hn

lemma capFrame_of_le (count : ℕ) (lf : LabeledFrame)
    (h : lf.instances.length ≤ count) : capFrame count lf = lf := by
  unfold capFrame
  rw [if_neg (by omega)]

/-- C8 (amended) -- On every list of labeled frames in which no two
instances of one frame share a track (as the tracker guarantees for its
output), `TrackCleaner.run` is idempotent: a second run with the same
`instance_count` leaves the frames unchanged, both in which instances each
frame holds and in which track each instance carries. -/
theorem cleaner_run_idempotent (count : ℕ) (frames : List LabeledFrame)
    (hd : ∀ lf ∈ frames, (lf.instances.map (fun i => i.track)).Nodup) :
    TrackCleaner.run count (TrackCleaner.run count frames) =
      TrackCleaner.run count frames := by
  cases hc : (frames.insertionSort frameLE).map (capFrame count) with
  | nil =>
    have h1 : TrackCleaner.run count frames = [] := by
      unfold TrackCleaner.run
      rw [hc]
    rw [h1]
    rfl
  | cons f0 rest =>
    have hrun1 : TrackCleaner.run count frames =
        healFrames count [] (tracksOf f0.instances) (f0 :: rest) := by
      unfold TrackCleaner.run
      rw [hc]
    have hcap_mem : ∀ lf ∈ f0 :: rest, ∃ s, lf = capFrame count s ∧ s ∈ frames := by
      intro lf hlf
      rw [← hc] at hlf
      rcases List.mem_map.mp hlf with ⟨s, hs, hlf'⟩
      exact ⟨s, hlf'.symm, (List.perm_insertionSort frameLE frames).mem_iff.mp hs⟩
    have hcap_nodup : ∀ lf ∈ f0 :: rest,
        (lf.instances.map (fun i => i.track)).Nodup := by
      intro lf hlf
      obtain ⟨s, heq, hsf⟩ := hcap_mem lf hlf
      rw [heq]
      exact capFrame_nodup _ _ (hd s hsf)
    have hcap_len : ∀ lf ∈ f0 :: rest, 0 < count → lf.instances.length ≤ count := by
      intro lf hlf hpos
      obtain ⟨s, heq, _⟩ := hcap_mem lf hlf
      rw [heq]
      exact capFrame_length_le count s hpos
    have hlg0 : count = 0 ∨ (tracksOf f0.instances).card ≤ count := by
      by_cases h0 : count = 0
      · exact Or.inl h0
      · right
        calc (tracksOf f0.instances).card
            ≤ (f0.instances.map (fun i => i.track)).length := List.toFinset_card_le _
          _ = f0.instances.length := by rw [List.length_map]
          _ ≤ count := hcap_len f0 (List.mem_cons_self _ _) (by omega)
    have hstep0 : healStep count [] (tracksOf f0.instances) f0 =
        (([], tracksOf f0.instances), f0) := by
      unfold healStep
      rw [applyFix_nil]
      rw [if_neg (by rw [Finset.sdiff_self]; simp)]
      rw [ite_self]
    have hout_eq : healFrames count [] (tracksOf f0.instances) (f0 :: rest) =
        f0 :: healFrames count [] (tracksOf f0.instances) rest := by
      simp only [healFrames]
      rw [hstep0]
    have hlen_le : ∀ lf' ∈ healFrames count [] (tracksOf f0.instances) (f0 :: rest),
        0 < count → lf'.instances.length ≤ count := by
      intro lf' hlf' hpos
      obtain ⟨lf, hlf, hlen⟩ := healFrames_exists_length count _ _ _ lf' hlf'
      rw [hlen]
      exact hcap_len lf hlf hpos
    have hcap2 : (healFrames count [] (tracksOf f0.instances) (f0 :: rest)).map
        (capFrame count) = healFrames count [] (tracksOf f0.instances) (f0 :: rest) := by
      have : (healFrames count [] (tracksOf f0.instances) (f0 :: rest)).map
          (capFrame count) = (healFrames count [] (tracksOf f0.instances)
            (f0 :: rest)).map id := by
        refine List.map_congr_left ?_
        intro lf hlf
        by_cases h0 : count = 0
        · rw [h0]
          exact capFrame_zero lf
        · exact capFrame_of_le _ _ (hlen_le lf hlf (by omega))
      rw [this, List.map_id]
    have hsorted : List.Sorted frameLE
        (healFrames count [] (tracksOf f0.instances) (f0 :: rest)) := by
      have h1 : (healFrames count [] (tracksOf f0.instances) (f0 :: rest)).map
          (fun lf => lf.frameIdx) = (f0 :: rest).map (fun lf => lf.frameIdx) :=
        healFrames_map_frameIdx count _ _ _
      have h2 : (f0 :: rest).map (fun lf => lf.frameIdx) =
          (frames.insertionSort frameLE).map (fun lf => lf.frameIdx) := by
        rw [← hc, List.map_map]
        refine List.map_congr_left ?_
        intro s _
        exact capFrame_frameIdx count s
      have h3 : List.Sorted frameLE (frames.insertionSort frameLE) :=
        List.sorted_insertionSort frameLE frames
      have h4 : List.Pairwise (fun a b : ℕ => a ≤ b)
          ((frames.insertionSort frameLE).map (fun lf => lf.frameIdx)) :=
        List.pairwise_map.mpr h3
      have h5 : List.Pairwise (fun a b : ℕ => a ≤ b)
          ((healFrames count [] (tracksOf f0.instances) (f0 :: rest)).map
            (fun lf => lf.frameIdx)) := by
        rw [h1, h2]
        exact h4
      have h6 : List.Pairwise
          (fun a b : LabeledFrame =>
            (fun lf => lf.frameIdx) a ≤ (fun lf => lf.frameIdx) b)
          (healFrames count [] (tracksOf f0.instances) (f0 :: rest)) :=
        List.pairwise_map.mp h5
      exact h6
    have hsort2 : (healFrames count [] (tracksOf f0.instances)
        (f0 :: rest)).insertionSort frameLE =
        healFrames count [] (tracksOf f0.instances) (f0 :: rest) :=
      List.Sorted.insertionSort_eq hsorted
    have hrun2 : TrackCleaner.run count
        (healFrames count [] (tracksOf f0.instances) (f0 :: rest)) =
        healFrames count [] (tracksOf f0.instances)
          (healFrames count [] (tracksOf f0.instances) (f0 :: rest)) := by
      unfold TrackCleaner.run
      rw [hsort2, hcap2, hout_eq]
    rw [hrun1, hrun2]
    exact healFrames_fixpoint count (f0 :: rest) [] (tracksOf f0.instances)
      hcap_nodup hlg0

/-- Witness for C8 (amended): on a two-frame list with distinct tracks per
frame, running the cleaner twice equals running it once. -/
theorem cleaner_run_idempotent_witness :
    TrackCleaner.run 2 (TrackCleaner.run 2
      [{ frameIdx := 0, instances := [{ points := [], track := c8A, uid := 0 }] },
       { frameIdx := 1, instances := [{ points := [], track := c8E, uid := 1 }] }]) =
    TrackCleaner.run 2
      [{ frameIdx := 0, instances := [{ points := [], track := c8A, uid := 0 }] },
       { frameIdx := 1, instances := [{ points := [], track := c8E, uid := 1 }] }] :=
  cleaner_run_idempotent 2
    [{ frameIdx := 0, instances := [{ points := [], track := c8A, uid := 0 }] },
     { frameIdx := 1, instances := [{ points := [], track := c8E, uid := 1 }] }]
    (by decide)

end Sleap
